import Mathlib

/-!
# Verification of the tooladapter library

Shallow embedding of the tooladapter Go library (canonical tool model,
`mapToJSONSchema` parser from `adapters/mcp.go`, the three concrete adapters
from `adapters/openai.go`, `adapters/anthropic.go`, `adapters/mcp.go`, and the
registry conversion helper), together with theorems settling the spec claims.

Go dynamic values (`any`) are modelled by the inductive `GoVal`; Go maps
(`map[string]any`) by association lists with Go's unique-key lookup; fallible
Go functions returning `(T, error)` by `Except String T`; nil-able pointers and
nil-able maps by `Option`.
-/

namespace ToolAdapter

/-- A dynamic Go value (`any`) as it occurs in generic JSON-schema maps:
strings, ints, float64s (modelled as rationals; no arithmetic is performed on
them), bools, `[]any` slices, `map[string]any` maps, and nil. -/
inductive GoVal where
  | vstr (s : String)
  | vint (n : Int)
  | vfloat (q : Rat)
  | vbool (b : Bool)
  | varr (elems : List GoVal)
  | vmap (entries : List (String × GoVal))
  | vnull

/-- A Go `map[string]any`, as an association list (Go maps have unique keys;
lookup takes the first match). -/
abbrev GoMap := List (String × GoVal)

/-- Go map indexing `m[k]`: the value at key `k` if the key is present. -/
def goLookup : GoMap → String → Option GoVal
  | [], _ => none
  | (k', v) :: rest, k => if k' = k then some v else goLookup rest k

theorem goLookup_sizeOf {m : GoMap} {k : String} {v : GoVal}
    (h : goLookup m k = some v) : sizeOf v < sizeOf m := by
  induction m with
  | nil => simp [goLookup] at h
  | cons p rest ih =>
    obtain ⟨k', v'⟩ := p
    by_cases hk : k' = k
    · simp only [goLookup, if_pos hk] at h
      cases h
      simp only [List.cons.sizeOf_spec, Prod.mk.sizeOf_spec]
      omega
    · simp only [goLookup, if_neg hk] at h
      have := ih h
      simp only [List.cons.sizeOf_spec, Prod.mk.sizeOf_spec]
      omega

@[simp] theorem ebind_ok {α β ε : Type} (a : α) (f : α → Except ε β) :
    (Except.ok a >>= f) = f a := rfl

@[simp] theorem ebind_error {α β ε : Type} (e : ε) (f : α → Except ε β) :
    ((Except.error e : Except ε α) >>= f) = Except.error e := rfl

@[simp] theorem epure_eq_ok {α ε : Type} (a : α) :
    (pure a : Except ε α) = Except.ok a := rfl

/-- Go's `int(f)` conversion for a `float64` value: truncation toward zero. -/
def goTruncToInt (q : Rat) : Int :=
  Int.tdiv q.num (q.den : Int)

/-- The non-recursive (scalar) fields of a `JSONSchema`, exactly the fields of
the Go struct in `canonical.go` (per the PRD API shape) that hold no nested
schema. Pointer-typed optional fields are `Option`; Go zero values are the
defaults. -/
structure SchemaScalars where
  type : String := ""
  description : String := ""
  pattern : String := ""
  format : String := ""
  ref : String := ""
  minimum : Option Rat := none
  maximum : Option Rat := none
  minLength : Option Int := none
  maxLength : Option Int := none
  constVal : Option GoVal := none
  defaultVal : Option GoVal := none
  additionalProperties : Option Bool := none
  enum : List GoVal := []
  required : List String := []

/-- The canonical `JSONSchema` superset type (PRD API shape: `canonical.go`).
Since Lean structures cannot be recursive, the scalar fields are grouped in
`SchemaScalars` and the recursive fields are constructor arguments. -/
inductive JSONSchema where
  | mk (scalars : SchemaScalars)
       (properties : List (String × JSONSchema))
       (items : Option JSONSchema)
       (defs : List (String × JSONSchema))
       (anyOf : List JSONSchema)
       (oneOf : List JSONSchema)
       (allOf : List JSONSchema)
       (notSchema : Option JSONSchema)

def JSONSchema.scalars : JSONSchema → SchemaScalars
  | .mk sc _ _ _ _ _ _ _ => sc

def JSONSchema.properties : JSONSchema → List (String × JSONSchema)
  | .mk _ p _ _ _ _ _ _ => p

def JSONSchema.items : JSONSchema → Option JSONSchema
  | .mk _ _ i _ _ _ _ _ => i

def JSONSchema.defs : JSONSchema → List (String × JSONSchema)
  | .mk _ _ _ d _ _ _ _ => d

def JSONSchema.anyOf : JSONSchema → List JSONSchema
  | .mk _ _ _ _ a _ _ _ => a

def JSONSchema.oneOf : JSONSchema → List JSONSchema
  | .mk _ _ _ _ _ o _ _ => o

def JSONSchema.allOf : JSONSchema → List JSONSchema
  | .mk _ _ _ _ _ _ a _ => a

def JSONSchema.notSchema : JSONSchema → Option JSONSchema
  | .mk _ _ _ _ _ _ _ n => n

def JSONSchema.type (s : JSONSchema) : String := s.scalars.type
def JSONSchema.description (s : JSONSchema) : String := s.scalars.description
def JSONSchema.pattern (s : JSONSchema) : String := s.scalars.pattern
def JSONSchema.format (s : JSONSchema) : String := s.scalars.format
def JSONSchema.ref (s : JSONSchema) : String := s.scalars.ref
def JSONSchema.minimum (s : JSONSchema) : Option Rat := s.scalars.minimum
def JSONSchema.maximum (s : JSONSchema) : Option Rat := s.scalars.maximum
def JSONSchema.minLength (s : JSONSchema) : Option Int := s.scalars.minLength
def JSONSchema.maxLength (s : JSONSchema) : Option Int := s.scalars.maxLength
def JSONSchema.constVal (s : JSONSchema) : Option GoVal := s.scalars.constVal
def JSONSchema.defaultVal (s : JSONSchema) : Option GoVal := s.scalars.defaultVal
def JSONSchema.additionalProperties (s : JSONSchema) : Option Bool :=
  s.scalars.additionalProperties
def JSONSchema.enum (s : JSONSchema) : List GoVal := s.scalars.enum
def JSONSchema.required (s : JSONSchema) : List String := s.scalars.required

/-- `if v, ok := m[k].(string); ok { field = v }` with zero value `""`. -/
def getStr (m : GoMap) (k : String) : String :=
  match goLookup m k with
  | some (.vstr s) => s
  | _ => ""

/-- The `minimum`/`maximum` extraction of `mapToJSONSchema`: a `float64` is
taken as-is, an `int` is converted via `float64(v)`. -/
def getNum (m : GoMap) (k : String) : Option Rat :=
  match goLookup m k with
  | some (.vfloat q) => some q
  | some (.vint n) => some (n : Rat)
  | _ => none

/-- The `minLength`/`maxLength` extraction of `mapToJSONSchema`: a `float64`
is converted via `int(v)`, an `int` is taken as-is. -/
def getLen (m : GoMap) (k : String) : Option Int :=
  match goLookup m k with
  | some (.vfloat q) => some (goTruncToInt q)
  | some (.vint n) => some n
  | _ => none

/-- The `additionalProperties` extraction: `m[k].(bool)`. -/
def getBool (m : GoMap) (k : String) : Option Bool :=
  match goLookup m k with
  | some (.vbool b) => some b
  | _ => none

/-- The `const`/`default` extraction: `if v, ok := m[k]; ok { field = v }`.
A Go `nil` value is indistinguishable from an unset field, hence `.vnull`
collapses to `none` exactly as in Go. -/
def getAny (m : GoMap) (k : String) : Option GoVal :=
  match goLookup m k with
  | some .vnull => none
  | some v => some v
  | none => none

/-- The `enum` extraction: `m[k].([]any)`. -/
def getArr (m : GoMap) (k : String) : List GoVal :=
  match goLookup m k with
  | some (.varr l) => l
  | _ => []

/-- The `required` extraction: each `[]any` element that is a string is kept,
others are silently dropped. -/
def getRequired (m : GoMap) : List String :=
  (getArr m "required").filterMap fun v =>
    match v with
    | .vstr s => some s
    | _ => none

/-- All scalar keyword extractions of `mapToJSONSchema` (`adapters/mcp.go`):
type, description, pattern, format, $ref, minimum, maximum, minLength,
maxLength, const, default, additionalProperties, enum, required. -/
def scalarPart (m : GoMap) : SchemaScalars :=
  { type := getStr m "type"
    description := getStr m "description"
    pattern := getStr m "pattern"
    format := getStr m "format"
    ref := getStr m "$ref"
    minimum := getNum m "minimum"
    maximum := getNum m "maximum"
    minLength := getLen m "minLength"
    maxLength := getLen m "maxLength"
    constVal := getAny m "const"
    defaultVal := getAny m "default"
    additionalProperties := getBool m "additionalProperties"
    enum := getArr m "enum"
    required := getRequired m }

mutual

/-- The recursive `properties` parse of `mapToJSONSchema`: each value under
the `properties` key (when that key holds a `map[string]any`) is itself parsed
as a schema; the first failure aborts. -/
def parsePropsF (m : GoMap) : Except String (List (String × JSONSchema)) :=
  match hp : goLookup m "properties" with
  | some (.vmap pm) => parseEntries pm
  | _ => pure []
termination_by sizeOf m
decreasing_by
  have := goLookup_sizeOf hp
  simp only [GoVal.vmap.sizeOf_spec] at this
  omega

/-- The recursive `items` parse of `mapToJSONSchema`: if the `items` key is
present, its value (whatever it is) is parsed as a schema. -/
def parseItemsF (m : GoMap) : Except String (Option JSONSchema) :=
  match hi : goLookup m "items" with
  | some v => do
    let s ← mapToJSONSchema v
    pure (some s)
  | none => pure none
termination_by sizeOf m
decreasing_by
  have := goLookup_sizeOf hi
  omega

/-- The recursive `$defs` parse of `mapToJSONSchema`. -/
def parseDefsF (m : GoMap) : Except String (List (String × JSONSchema)) :=
  match hd : goLookup m "$defs" with
  | some (.vmap dm) => parseEntries dm
  | _ => pure []
termination_by sizeOf m
decreasing_by
  have := goLookup_sizeOf hd
  simp only [GoVal.vmap.sizeOf_spec] at this
  omega

/-- The recursive combinator parse of `mapToJSONSchema` (used for `anyOf`,
`oneOf` and `allOf`): when the key holds an `[]any`, each element is parsed
as a schema. -/
def parseCombF (m : GoMap) (k : String) : Except String (List JSONSchema) :=
  match hc : goLookup m k with
  | some (.varr l) => parseSchemaList l
  | _ => pure []
termination_by sizeOf m
decreasing_by
  have := goLookup_sizeOf hc
  simp only [GoVal.varr.sizeOf_spec] at this
  omega

/-- The recursive `not` parse of `mapToJSONSchema`: if the `not` key is
present, its value is parsed as a schema. -/
def parseNotF (m : GoMap) : Except String (Option JSONSchema) :=
  match hn : goLookup m "not" with
  | some v => do
    let s ← mapToJSONSchema v
    pure (some s)
  | none => pure none
termination_by sizeOf m
decreasing_by
  have := goLookup_sizeOf hn
  omega

/-- Faithful embedding of `mapToJSONSchema` from `adapters/mcp.go`: a
non-map value is rejected; scalar keywords are extracted field by field
(`scalarPart`); nested `properties`, `items`, `$defs`, `anyOf`, `oneOf`,
`allOf` and `not` are recursively parsed in the source's order, the first
failure aborting the whole parse. -/
def mapToJSONSchema : GoVal → Except String JSONSchema
  | .vmap m => do
    let props ← parsePropsF m
    let items ← parseItemsF m
    let defs ← parseDefsF m
    let anyOfs ← parseCombF m "anyOf"
    let oneOfs ← parseCombF m "oneOf"
    let allOfs ← parseCombF m "allOf"
    let nots ← parseNotF m
    pure (JSONSchema.mk (scalarPart m) props items defs anyOfs oneOfs allOfs nots)
  | _ => Except.error "schema is not a map[string]any"
termination_by v => sizeOf v
decreasing_by
  all_goals simp only [GoVal.vmap.sizeOf_spec]; omega

/-- Parse every value of a `map[string]any` of schemas (`properties`/`$defs`
entries), propagating the first failure. -/
def parseEntries : List (String × GoVal) → Except String (List (String × JSONSchema))
  | [] => pure []
  | (k, v) :: rest => do
    let s ← mapToJSONSchema v
    let tail ← parseEntries rest
    pure ((k, s) :: tail)
termination_by l => sizeOf l
decreasing_by
  · simp only [List.cons.sizeOf_spec, Prod.mk.sizeOf_spec]; omega
  · simp only [List.cons.sizeOf_spec, Prod.mk.sizeOf_spec]; omega

/-- Parse every element of an `[]any` of schemas (combinator elements),
propagating the first failure. -/
def parseSchemaList : List GoVal → Except String (List JSONSchema)
  | [] => pure []
  | v :: rest => do
    let s ← mapToJSONSchema v
    let tail ← parseSchemaList rest
    pure (s :: tail)
termination_by l => sizeOf l
decreasing_by
  · simp only [List.cons.sizeOf_spec]; omega
  · simp only [List.cons.sizeOf_spec]; omega

end

/-- Prepend the entry `(k, x)` when the optional value `v` is `some x`,
otherwise leave the map unchanged.  Used to build `ToMap` results so that each
keyword is emitted only when populated. -/
def consOpt (k : String) (v : Option GoVal) (rest : GoMap) : GoMap :=
  match v with
  | some x => (k, x) :: rest
  | none => rest

/-- A string field is emitted only when non-empty (Go zero-value omission). -/
def strOpt (s : String) : Option GoVal :=
  if s = "" then none else some (.vstr s)

/-- An optional numeric bound is emitted as a `float64` when set. -/
def numOpt : Option Rat → Option GoVal
  | some q => some (.vfloat q)
  | none => none

/-- An optional integer bound is emitted as an `int` when set. -/
def intOpt : Option Int → Option GoVal
  | some n => some (.vint n)
  | none => none

/-- An optional boolean is emitted as a `bool` when set. -/
def boolOpt : Option Bool → Option GoVal
  | some b => some (.vbool b)
  | none => none

/-- A slice of values is emitted as an `[]any` only when non-empty. -/
def arrOpt : List GoVal → Option GoVal
  | [] => none
  | l => some (.varr l)

/-- A slice of strings is emitted as an `[]any` of strings only when
non-empty. -/
def strArrOpt : List String → Option GoVal
  | [] => none
  | l => some (.varr (l.map GoVal.vstr))

/-- A nested schema map is emitted only when non-empty. -/
def mapOpt : GoMap → Option GoVal
  | [] => none
  | entries => some (.vmap entries)

mutual

/-- Modelled from the spec: `JSONSchema.ToMap()` lives in the repository's
`canonical.go`, which is not among the given sources.  Spec §4.1: the map uses
JSON Schema keyword names as keys, only fields with a non-default/non-absent
value are emitted (empty string, nil pointer, empty sequence/mapping are all
omitted), and nested schemas in `properties`, `items`, `$defs` and the
combinator sequences are projected recursively the same way. -/
def JSONSchema.toMap : JSONSchema → GoMap
  | .mk sc props items defs anyOfs oneOfs allOfs nots =>
    consOpt "type" (strOpt sc.type) <|
    consOpt "description" (strOpt sc.description) <|
    consOpt "pattern" (strOpt sc.pattern) <|
    consOpt "format" (strOpt sc.format) <|
    consOpt "$ref" (strOpt sc.ref) <|
    consOpt "minimum" (numOpt sc.minimum) <|
    consOpt "maximum" (numOpt sc.maximum) <|
    consOpt "minLength" (intOpt sc.minLength) <|
    consOpt "maxLength" (intOpt sc.maxLength) <|
    consOpt "const" sc.constVal <|
    consOpt "default" sc.defaultVal <|
    consOpt "additionalProperties" (boolOpt sc.additionalProperties) <|
    consOpt "enum" (arrOpt sc.enum) <|
    consOpt "required" (strArrOpt sc.required) <|
    consOpt "properties" (mapOpt (toMapEntries props)) <|
    consOpt "items" (toMapOpt items) <|
    consOpt "$defs" (mapOpt (toMapEntries defs)) <|
    consOpt "anyOf" (arrOpt (toMapList anyOfs)) <|
    consOpt "oneOf" (arrOpt (toMapList oneOfs)) <|
    consOpt "allOf" (arrOpt (toMapList allOfs)) <|
    consOpt "not" (toMapOpt nots) []

/-- Recursive `ToMap` projection of a name-to-schema mapping
(`properties`/`$defs`). -/
def toMapEntries : List (String × JSONSchema) → GoMap
  | [] => []
  | (k, s) :: rest => (k, .vmap s.toMap) :: toMapEntries rest

/-- Recursive `ToMap` projection of a schema sequence (combinators). -/
def toMapList : List JSONSchema → List GoVal
  | [] => []
  | s :: rest => .vmap s.toMap :: toMapList rest

/-- Recursive `ToMap` projection of an optional nested schema
(`items`/`not`). -/
def toMapOpt : Option JSONSchema → Option GoVal
  | some s => some (.vmap s.toMap)
  | none => none

end

/-- The protocol-agnostic canonical tool record (`canonical.go`, per the PRD
API shape).  `sourceMeta` is a nil-able Go map, hence `Option`. -/
structure CanonicalTool where
  nameSpace : String := ""
  name : String := ""
  version : String := ""
  description : String := ""
  category : String := ""
  tags : List String := []
  inputSchema : Option JSONSchema := none
  outputSchema : Option JSONSchema := none
  sourceFormat : String := ""
  sourceMeta : Option GoMap := none
  requiredScopes : List String := []

/-- The closed schema-capability enumeration (`adapter.go`; its Go source is
not under the given sources, the members are fixed by the spec §3 and by the
adapter tests' exhaustive tables). -/
inductive SchemaFeature where
  | ref | defs | anyOf | oneOf | allOf | not | pattern | format
  | additionalProperties | minimum | maximum | minLength | maxLength
  | enum | const | default
deriving DecidableEq

/-- Modelled from the spec: `AllFeatures()` from `adapter.go` (not among the
given sources) returns the full feature enumeration in a stable order; the
order used in the adapters' exhaustive test tables. -/
def AllFeatures : List SchemaFeature :=
  [.ref, .defs, .anyOf, .oneOf, .allOf, .not, .pattern, .format,
   .additionalProperties, .minimum, .maximum, .minLength, .maxLength,
   .enum, .const, .default]

/-- `OpenAIFunction` (`adapters/openai.go`): name, optional description, a
nil-able `Parameters` schema map, and the strict-mode flag. -/
structure OpenAIFunction where
  name : String := ""
  description : String := ""
  parameters : Option GoMap := none
  strict : Bool := false

/-- `AnthropicTool` (`adapters/anthropic.go`): name, optional description, and
a nil-able `input_schema` map. -/
structure AnthropicTool where
  name : String := ""
  description : String := ""
  inputSchema : Option GoMap := none

/-- `mcp.Tool` as used by `adapters/mcp.go` (name, title, description, and
`any`-typed nil-able input/output schemas). -/
structure MCPTool where
  name : String := ""
  title : String := ""
  description : String := ""
  inputSchema : Option GoVal := none
  outputSchema : Option GoVal := none

/-- The dynamic (`any`-typed) argument of `ToCanonical`: each adapter's raw
struct in value form, in pointer form (a `none` payload being a nil pointer),
or some other value (a string, or anything else). -/
inductive RawValue where
  | mcpVal (t : MCPTool)
  | mcpPtr (p : Option MCPTool)
  | openaiVal (f : OpenAIFunction)
  | openaiPtr (p : Option OpenAIFunction)
  | anthropicVal (t : AnthropicTool)
  | anthropicPtr (p : Option AnthropicTool)
  | rawString (s : String)
  | otherValue

/-- Body of `OpenAIAdapter.ToCanonical` after the type switch
(`adapters/openai.go`): build the canonical tool, stash `strict=true` in
`SourceMeta` only when true, and parse `Parameters` when non-nil. -/
def openaiToCanonicalFn (fn : OpenAIFunction) : Except String CanonicalTool := do
  let meta : GoMap := if fn.strict then [("strict", GoVal.vbool true)] else []
  let inputSchema ← match fn.parameters with
    | some pm => do
      let s ← mapToJSONSchema (.vmap pm)
      pure (some s)
    | none => pure none
  pure { name := fn.name, description := fn.description, sourceFormat := "openai",
         sourceMeta := some meta, inputSchema := inputSchema }

/-- `OpenAIAdapter.ToCanonical` (`adapters/openai.go`): accepts
`OpenAIFunction` or `*OpenAIFunction`, rejects nil pointers and anything
else with the source's error strings. -/
def openaiToCanonical : RawValue → Except String CanonicalTool
  | .openaiVal f => openaiToCanonicalFn f
  | .openaiPtr (some f) => openaiToCanonicalFn f
  | .openaiPtr none => .error "nil OpenAIFunction pointer"
  | _ => .error "expected OpenAIFunction or *OpenAIFunction"

/-- Go map assignment `m[k] = v`: replaces any existing entry for `k`. -/
def goSet (m : GoMap) (k : String) (v : GoVal) : GoMap :=
  (k, v) :: m.filter fun p => p.1 != k

/-- `OpenAIAdapter.FromCanonical` (`adapters/openai.go`): nil tool is an
error; `Strict` is restored from `SourceMeta["strict"]` when present and
true; the input schema is projected via `ToMap` into `Parameters`, and in
strict mode `additionalProperties=false` is forced at the root. -/
def openaiFromCanonical : Option CanonicalTool → Except String OpenAIFunction
  | none => .error "nil CanonicalTool"
  | some tool =>
    let strict : Bool :=
      match tool.sourceMeta with
      | some meta =>
        match goLookup meta "strict" with
        | some (.vbool b) => b
        | _ => false
      | none => false
    let parameters : Option GoMap :=
      match tool.inputSchema with
      | some s =>
        let params := s.toMap
        some (if strict then goSet params "additionalProperties" (.vbool false) else params)
      | none => none
    .ok { name := tool.name, description := tool.description,
          parameters := parameters, strict := strict }

/-- `OpenAIAdapter.SupportsFeature` (`adapters/openai.go`): `$ref`, `$defs`
and the combinators are unsupported, everything else is supported. -/
def openaiSupportsFeature : SchemaFeature → Bool
  | .ref => false
  | .defs => false
  | .anyOf => false
  | .oneOf => false
  | .allOf => false
  | .not => false
  | _ => true

/-- Body of `AnthropicAdapter.ToCanonical` after the type switch
(`adapters/anthropic.go`). -/
def anthropicToCanonicalFn (tool : AnthropicTool) : Except String CanonicalTool := do
  let inputSchema ← match tool.inputSchema with
    | some pm => do
      let s ← mapToJSONSchema (.vmap pm)
      pure (some s)
    | none => pure none
  pure { name := tool.name, description := tool.description,
         sourceFormat := "anthropic", sourceMeta := some [],
         inputSchema := inputSchema }

/-- `AnthropicAdapter.ToCanonical` (`adapters/anthropic.go`). -/
def anthropicToCanonical : RawValue → Except String CanonicalTool
  | .anthropicVal t => anthropicToCanonicalFn t
  | .anthropicPtr (some t) => anthropicToCanonicalFn t
  | .anthropicPtr none => .error "nil AnthropicTool pointer"
  | _ => .error "expected AnthropicTool or *AnthropicTool"

/-- `AnthropicAdapter.FromCanonical` (`adapters/anthropic.go`). -/
def anthropicFromCanonical : Option CanonicalTool → Except String AnthropicTool
  | none => .error "nil CanonicalTool"
  | some tool =>
    .ok { name := tool.name, description := tool.description,
          inputSchema :=
            match tool.inputSchema with
            | some s => some s.toMap
            | none => none }

/-- `AnthropicAdapter.SupportsFeature` (`adapters/anthropic.go`): only
`$ref` and `$defs` are unsupported. -/
def anthropicSupportsFeature : SchemaFeature → Bool
  | .ref => false
  | .defs => false
  | _ => true

/-- Body of `MCPAdapter.ToCanonical` after the type switch
(`adapters/mcp.go`): stash a non-empty `Title` into `SourceMeta["title"]`,
and parse both nil-able schemas. -/
def mcpToCanonicalFn (tool : MCPTool) : Except String CanonicalTool := do
  let meta : GoMap := if tool.title ≠ "" then [("title", GoVal.vstr tool.title)] else []
  let inputSchema ← match tool.inputSchema with
    | some v => do
      let s ← mapToJSONSchema v
      pure (some s)
    | none => pure none
  let outputSchema ← match tool.outputSchema with
    | some v => do
      let s ← mapToJSONSchema v
      pure (some s)
    | none => pure none
  pure { name := tool.name, description := tool.description, sourceFormat := "mcp",
         sourceMeta := some meta, inputSchema := inputSchema,
         outputSchema := outputSchema }

/-- `MCPAdapter.ToCanonical` (`adapters/mcp.go`). -/
def mcpToCanonical : RawValue → Except String CanonicalTool
  | .mcpVal t => mcpToCanonicalFn t
  | .mcpPtr (some t) => mcpToCanonicalFn t
  | .mcpPtr none => .error "nil mcp.Tool pointer"
  | _ => .error "expected mcp.Tool or *mcp.Tool"

/-- `MCPAdapter.FromCanonical` (`adapters/mcp.go`): restores `Title` from
`SourceMeta["title"]` when present as a string, and projects both schemas. -/
def mcpFromCanonical : Option CanonicalTool → Except String MCPTool
  | none => .error "nil CanonicalTool"
  | some tool =>
    let title : String :=
      match tool.sourceMeta with
      | some meta =>
        match goLookup meta "title" with
        | some (.vstr t) => t
        | _ => ""
      | none => ""
    .ok { name := tool.name, title := title, description := tool.description,
          inputSchema :=
            match tool.inputSchema with
            | some s => some (.vmap s.toMap)
            | none => none,
          outputSchema :=
            match tool.outputSchema with
            | some s => some (.vmap s.toMap)
            | none => none }

/-- `MCPAdapter.SupportsFeature` (`adapters/mcp.go`): every feature is
supported. -/
def mcpSupportsFeature : SchemaFeature → Bool := fun _ => true

/-- Does a scalar field of one schema node populate the given feature?
(The `ref`, `pattern`, `format` strings count when non-empty, the optional
bounds/`const`/`default`/`additionalProperties` when set, `enum` when
non-empty.) -/
def scalarUsesFeature (sc : SchemaScalars) : SchemaFeature → Bool
  | .ref => sc.ref != ""
  | .pattern => sc.pattern != ""
  | .format => sc.format != ""
  | .additionalProperties => sc.additionalProperties.isSome
  | .minimum => sc.minimum.isSome
  | .maximum => sc.maximum.isSome
  | .minLength => sc.minLength.isSome
  | .maxLength => sc.maxLength.isSome
  | .enum => !sc.enum.isEmpty
  | .const => sc.constVal.isSome
  | .default => sc.defaultVal.isSome
  | _ => false

mutual

/-- Modelled from the spec: the recursive feature-use scan of `registry.go`
(not among the given sources).  Spec §4.5: a feature is exercised when the
relevant field is populated anywhere in the schema tree, checked recursively
through nested `properties`, `items`, `$defs` and the combinator
sequences. -/
def schemaUsesFeature : JSONSchema → SchemaFeature → Bool
  | .mk sc props items defs anyOfs oneOfs allOfs nots, f =>
    scalarUsesFeature sc f ||
    (match f with
     | .defs => !defs.isEmpty
     | .anyOf => !anyOfs.isEmpty
     | .oneOf => !oneOfs.isEmpty
     | .allOf => !allOfs.isEmpty
     | .not => nots.isSome
     | _ => false) ||
    entriesUseFeature props f || optUsesFeature items f ||
    entriesUseFeature defs f || listUsesFeature anyOfs f ||
    listUsesFeature oneOfs f || listUsesFeature allOfs f ||
    optUsesFeature nots f

/-- Recursive feature-use scan over a name-to-schema mapping. -/
def entriesUseFeature : List (String × JSONSchema) → SchemaFeature → Bool
  | [], _ => false
  | (_, s) :: rest, f => schemaUsesFeature s f || entriesUseFeature rest f

/-- Recursive feature-use scan over a schema sequence. -/
def listUsesFeature : List JSONSchema → SchemaFeature → Bool
  | [], _ => false
  | s :: rest, f => schemaUsesFeature s f || listUsesFeature rest f

/-- Recursive feature-use scan over an optional nested schema. -/
def optUsesFeature : Option JSONSchema → SchemaFeature → Bool
  | some s, f => schemaUsesFeature s f
  | none, _ => false

end

/-- Modelled from the spec: a canonical tool exercises a feature when either
its input schema or its output schema does (spec §4.5: "on both input and
output schema"). -/
def toolUsesFeature (t : CanonicalTool) (f : SchemaFeature) : Bool :=
  (match t.inputSchema with
   | some s => schemaUsesFeature s f
   | none => false) ||
  (match t.outputSchema with
   | some s => schemaUsesFeature s f
   | none => false)

/-- `FeatureLossWarning` (`adapter.go`, per spec §3): which feature was lost,
converting from which adapter to which adapter. -/
structure FeatureLossWarning where
  feature : SchemaFeature
  fromAdapter : String
  toAdapter : String
deriving DecidableEq

/-- The direction tag of a `ConversionError` (`adapter.go`, per spec §3). -/
inductive ConvDirection where
  | toCanonicalDir
  | fromCanonicalDir
deriving DecidableEq

/-- `ConversionError` (`adapter.go`, per spec §3): adapter name, direction,
and the wrapped cause. -/
structure ConversionError where
  adapter : String
  direction : ConvDirection
  cause : String

/-- The raw value produced by `FromCanonical`, dynamically typed in Go. -/
inductive RawOut where
  | mcpTool (t : MCPTool)
  | openaiFn (f : OpenAIFunction)
  | anthropicTool (t : AnthropicTool)

/-- `ConversionResult` (per spec §3): the produced raw tool value and the
feature-loss warnings accumulated during the call. -/
structure ConversionResult where
  tool : RawOut
  warnings : List FeatureLossWarning

/-- The adapter record: the method set of the Go `Adapter` interface. -/
structure Adapter where
  name : String
  toCanonical : RawValue → Except String CanonicalTool
  fromCanonical : Option CanonicalTool → Except String RawOut
  supportsFeature : SchemaFeature → Bool

/-- The MCP (reference) adapter packaged behind the `Adapter` interface. -/
def mcpAdapter : Adapter :=
  { name := "mcp", toCanonical := mcpToCanonical,
    fromCanonical := fun t => (mcpFromCanonical t).map RawOut.mcpTool,
    supportsFeature := mcpSupportsFeature }

/-- The OpenAI (Provider-A) adapter packaged behind the `Adapter`
interface. -/
def openaiAdapter : Adapter :=
  { name := "openai", toCanonical := openaiToCanonical,
    fromCanonical := fun t => (openaiFromCanonical t).map RawOut.openaiFn,
    supportsFeature := openaiSupportsFeature }

/-- The Anthropic (Provider-B) adapter packaged behind the `Adapter`
interface. -/
def anthropicAdapter : Adapter :=
  { name := "anthropic", toCanonical := anthropicToCanonical,
    fromCanonical := fun t => (anthropicFromCanonical t).map RawOut.anthropicTool,
    supportsFeature := anthropicSupportsFeature }

/-- The registry's name-to-adapter mapping (`registry.go`). -/
abbrev Registry := List Adapter

/-- Registry lookup by adapter name. -/
def registryGet : Registry → String → Option Adapter
  | [], _ => none
  | a :: rest, n => if a.name = n then some a else registryGet rest n

/-- Modelled from the spec: the warning accumulation of
`AdapterRegistry.Convert` (`registry.go`, not among the given sources).
Spec §4.5: for every feature in the full enumeration, if the from adapter
supports it, the to adapter does not, and the canonical tool's schema tree
exercises it, append one `FeatureLossWarning`. -/
def lossWarnings (fromA toA : Adapter) (t : CanonicalTool) : List FeatureLossWarning :=
  (AllFeatures.filter fun f =>
    fromA.supportsFeature f && !toA.supportsFeature f && toolUsesFeature t f).map
    fun f => ⟨f, fromA.name, toA.name⟩

/-- Modelled from the spec: `AdapterRegistry.Convert` (`registry.go`, not
among the given sources).  Spec §4.5: look up both adapters; call the from
adapter's `ToCanonical`, wrapping failure with the from adapter's name and
the to-canonical direction; accumulate the feature-loss warnings; call the
to adapter's `FromCanonical`, wrapping failure with the to adapter's name
and the from-canonical direction; return the raw result with the warnings. -/
def registryConvert (reg : Registry) (raw : RawValue) (fromName toName : String) :
    Except ConversionError ConversionResult :=
  match registryGet reg fromName with
  | none => .error ⟨fromName, .toCanonicalDir, "adapter not found"⟩
  | some fromA =>
    match registryGet reg toName with
    | none => .error ⟨toName, .fromCanonicalDir, "adapter not found"⟩
    | some toA =>
      match fromA.toCanonical raw with
      | .error e => .error ⟨fromA.name, .toCanonicalDir, e⟩
      | .ok ct =>
        match toA.fromCanonical (some ct) with
        | .error e => .error ⟨toA.name, .fromCanonicalDir, e⟩
        | .ok out => .ok ⟨out, lossWarnings fromA toA ct⟩

/-- Leaf-constraint preservation between an input schema map and a
round-tripped output map: each populated leaf keyword, when present with its
plausible type, reappears bound to its value; the numeric bounds normalize an
integer representation to the floating one. -/
def leafPreserved (inm outm : GoMap) : Prop :=
  (∀ str, goLookup inm "type" = some (.vstr str) → str ≠ "" →
    goLookup outm "type" = some (.vstr str)) ∧
  (∀ str, goLookup inm "description" = some (.vstr str) → str ≠ "" →
    goLookup outm "description" = some (.vstr str)) ∧
  (∀ str, goLookup inm "pattern" = some (.vstr str) → str ≠ "" →
    goLookup outm "pattern" = some (.vstr str)) ∧
  (∀ str, goLookup inm "format" = some (.vstr str) → str ≠ "" →
    goLookup outm "format" = some (.vstr str)) ∧
  (∀ q, goLookup inm "minimum" = some (.vfloat q) →
    goLookup outm "minimum" = some (.vfloat q)) ∧
  (∀ n : Int, goLookup inm "minimum" = some (.vint n) →
    goLookup outm "minimum" = some (.vfloat (n : Rat))) ∧
  (∀ q, goLookup inm "maximum" = some (.vfloat q) →
    goLookup outm "maximum" = some (.vfloat q)) ∧
  (∀ n : Int, goLookup inm "maximum" = some (.vint n) →
    goLookup outm "maximum" = some (.vfloat (n : Rat))) ∧
  (∀ n : Int, goLookup inm "minLength" = some (.vint n) →
    goLookup outm "minLength" = some (.vint n)) ∧
  (∀ n : Int, goLookup inm "maxLength" = some (.vint n) →
    goLookup outm "maxLength" = some (.vint n)) ∧
  (∀ l, goLookup inm "enum" = some (.varr l) → l ≠ [] →
    goLookup outm "enum" = some (.varr l)) ∧
  (∀ v, goLookup inm "const" = some v → v ≠ .vnull →
    goLookup outm "const" = some v) ∧
  (∀ v, goLookup inm "default" = some v → v ≠ .vnull →
    goLookup outm "default" = some v)

/-- Preservation of a populated root `additionalProperties` value. -/
def apPreserved (inm outm : GoMap) : Prop :=
  ∀ b, goLookup inm "additionalProperties" = some (.vbool b) →
    goLookup outm "additionalProperties" = some (.vbool b)

/-- Preservation of a populated root `$ref` value. -/
def refPreserved (inm outm : GoMap) : Prop :=
  ∀ str, goLookup inm "$ref" = some (.vstr str) → str ≠ "" →
    goLookup outm "$ref" = some (.vstr str)

/-- First-match lookup in a name-to-schema mapping (parsed `properties` or
`$defs` entries). -/
def lookupSchemas : List (String × JSONSchema) → String → Option JSONSchema
  | [], _ => none
  | (k', s) :: rest, k => if k' = k then some s else lookupSchemas rest k

mutual

/-- Deep (recursive) preservation between an input schema map and its
round-tripped projection: the leaf constraints, `additionalProperties` and
`$ref` of this node are preserved, and every nested schema map under
`properties`, `items`, `$defs`, the combinator sequences and `not` is itself
deeply preserved in the corresponding position of the output map. -/
def deepPreserved (inm outm : GoMap) : Prop :=
  leafPreserved inm outm ∧ apPreserved inm outm ∧ refPreserved inm outm ∧
  (∀ pm (hp : goLookup inm "properties" = some (GoVal.vmap pm)) k sub
     (hk : goLookup pm k = some (GoVal.vmap sub)),
     ∃ pm', goLookup outm "properties" = some (.vmap pm') ∧
       ∃ sub', goLookup pm' k = some (.vmap sub') ∧ deepPreserved sub sub') ∧
  (∀ im (him : goLookup inm "items" = some (GoVal.vmap im)),
     ∃ im', goLookup outm "items" = some (.vmap im') ∧ deepPreserved im im') ∧
  (∀ dm (hd : goLookup inm "$defs" = some (GoVal.vmap dm)) k sub
     (hk : goLookup dm k = some (GoVal.vmap sub)),
     ∃ dm', goLookup outm "$defs" = some (.vmap dm') ∧
       ∃ sub', goLookup dm' k = some (.vmap sub') ∧ deepPreserved sub sub') ∧
  (∀ l (hl : goLookup inm "anyOf" = some (GoVal.varr l)), l ≠ [] →
     ∃ l', goLookup outm "anyOf" = some (.varr l') ∧ deepList l l') ∧
  (∀ l (hl : goLookup inm "oneOf" = some (GoVal.varr l)), l ≠ [] →
     ∃ l', goLookup outm "oneOf" = some (.varr l') ∧ deepList l l') ∧
  (∀ l (hl : goLookup inm "allOf" = some (GoVal.varr l)), l ≠ [] →
     ∃ l', goLookup outm "allOf" = some (.varr l') ∧ deepList l l') ∧
  (∀ nm (hn : goLookup inm "not" = some (GoVal.vmap nm)),
     ∃ nm', goLookup outm "not" = some (.vmap nm') ∧ deepPreserved nm nm')
termination_by sizeOf inm
decreasing_by
  · have a1 := goLookup_sizeOf hp
    have a2 := goLookup_sizeOf hk
    simp only [GoVal.vmap.sizeOf_spec] at a1 a2
    omega
  · have a1 := goLookup_sizeOf him
    simp only [GoVal.vmap.sizeOf_spec] at a1
    omega
  · have a1 := goLookup_sizeOf hd
    have a2 := goLookup_sizeOf hk
    simp only [GoVal.vmap.sizeOf_spec] at a1 a2
    omega
  · have a1 := goLookup_sizeOf hl
    simp only [GoVal.varr.sizeOf_spec] at a1
    omega
  · have a1 := goLookup_sizeOf hl
    simp only [GoVal.varr.sizeOf_spec] at a1
    omega
  · have a1 := goLookup_sizeOf hl
    simp only [GoVal.varr.sizeOf_spec] at a1
    omega
  · have a1 := goLookup_sizeOf hn
    simp only [GoVal.vmap.sizeOf_spec] at a1
    omega

/-- Pointwise deep preservation of combinator sequences: same length, and
each input element that is a schema map corresponds to a deeply preserved
schema map in the output. -/
def deepList : List GoVal → List GoVal → Prop
  | [], [] => True
  | vin :: lin', vout :: lout' =>
    (∀ sub (hsub : vin = GoVal.vmap sub),
      ∃ sub', vout = .vmap sub' ∧ deepPreserved sub sub') ∧
    deepList lin' lout'
  | _, _ => False
termination_by lin _ => sizeOf lin
decreasing_by
  · subst hsub
    simp only [List.cons.sizeOf_spec, GoVal.vmap.sizeOf_spec]
    omega
  · simp only [List.cons.sizeOf_spec]
    omega

end

/-- The purely nested part of `deepPreserved` (without the root leaf,
`additionalProperties` and `$ref` clauses); in strict mode the OpenAI
round trip satisfies this together with the root override. -/
def deepNested (inm outm : GoMap) : Prop :=
  (∀ pm (hp : goLookup inm "properties" = some (GoVal.vmap pm)) k sub
     (hk : goLookup pm k = some (GoVal.vmap sub)),
     ∃ pm', goLookup outm "properties" = some (.vmap pm') ∧
       ∃ sub', goLookup pm' k = some (.vmap sub') ∧ deepPreserved sub sub') ∧
  (∀ im (him : goLookup inm "items" = some (GoVal.vmap im)),
     ∃ im', goLookup outm "items" = some (.vmap im') ∧ deepPreserved im im') ∧
  (∀ dm (hd : goLookup inm "$defs" = some (GoVal.vmap dm)) k sub
     (hk : goLookup dm k = some (GoVal.vmap sub)),
     ∃ dm', goLookup outm "$defs" = some (.vmap dm') ∧
       ∃ sub', goLookup dm' k = some (.vmap sub') ∧ deepPreserved sub sub') ∧
  (∀ l (hl : goLookup inm "anyOf" = some (GoVal.varr l)), l ≠ [] →
     ∃ l', goLookup outm "anyOf" = some (.varr l') ∧ deepList l l') ∧
  (∀ l (hl : goLookup inm "oneOf" = some (GoVal.varr l)), l ≠ [] →
     ∃ l', goLookup outm "oneOf" = some (.varr l') ∧ deepList l l') ∧
  (∀ l (hl : goLookup inm "allOf" = some (GoVal.varr l)), l ≠ [] →
     ∃ l', goLookup outm "allOf" = some (.varr l') ∧ deepList l l') ∧
  (∀ nm (hn : goLookup inm "not" = some (GoVal.vmap nm)),
     ∃ nm', goLookup outm "not" = some (.vmap nm') ∧ deepPreserved nm nm')

/-- The keyword keys that `mapToJSONSchema` reads; every other key of the
input map is ignored. -/
def recognizedKeys : List String :=
  ["type", "description", "pattern", "format", "$ref", "minimum", "maximum",
   "minLength", "maxLength", "const", "default", "additionalProperties",
   "enum", "required", "properties", "items", "$defs", "anyOf", "oneOf",
   "allOf", "not"]

/-! ## Helper lemmas -/

@[simp] theorem goLookup_nil (k : String) : goLookup [] k = none := rfl

theorem goLookup_cons_ne {k k' : String} (h : k' ≠ k) (v : GoVal) (rest : GoMap) :
    goLookup ((k', v) :: rest) k = goLookup rest k := by
  simp [goLookup, h]

theorem goLookup_consOpt_ne {k k' : String} (h : k' ≠ k) (v : Option GoVal) (rest : GoMap) :
    goLookup (consOpt k' v rest) k = goLookup rest k := by
  cases v <;> simp [consOpt, goLookup, h]

theorem goLookup_consOpt_self {k : String} {rest : GoMap} (h : goLookup rest k = none)
    (v : Option GoVal) : goLookup (consOpt k v rest) k = v := by
  cases v <;> simp [consOpt, goLookup, h]

theorem goLookup_filter_ne {k k' : String} (h : k' ≠ k) (m : GoMap) :
    goLookup (m.filter fun p => p.1 != k') k = goLookup m k := by
  induction m with
  | nil => rfl
  | cons p rest ih =>
    obtain ⟨a, b⟩ := p
    by_cases ha : a = k'
    · subst ha
      simp only [List.filter_cons, bne_self_eq_false, Bool.false_eq_true, if_false, ih]
      rw [goLookup_cons_ne h]
    · by_cases hak : a = k
      · subst hak
        simp [List.filter_cons, bne_iff_ne, ha, goLookup]
      · simp [List.filter_cons, bne_iff_ne, ha, goLookup, hak, ih]

theorem goLookup_goSet_self (m : GoMap) (k : String) (v : GoVal) :
    goLookup (goSet m k v) k = some v := by
  simp [goSet, goLookup]

theorem goLookup_goSet_ne {k k' : String} (h : k' ≠ k) (m : GoMap) (v : GoVal) :
    goLookup (goSet m k' v) k = goLookup m k := by
  rw [goSet, goLookup_cons_ne h, goLookup_filter_ne h]

/-- Root-level lookups on a `ToMap` projection, one per scalar keyword. -/
theorem toMap_lookup_type (s : JSONSchema) :
    goLookup s.toMap "type" = strOpt s.type := by
  cases s with
  | mk sc props items defs a o al n =>
    rw [JSONSchema.toMap]
    simp only [goLookup_consOpt_ne, goLookup_consOpt_self, goLookup_nil,
               ne_eq, String.reduceEq, not_false_eq_true]
    rfl

theorem toMap_lookup_description (s : JSONSchema) :
    goLookup s.toMap "description" = strOpt s.description := by
  cases s with
  | mk sc props items defs a o al n =>
    rw [JSONSchema.toMap]
    simp only [goLookup_consOpt_ne, goLookup_consOpt_self, goLookup_nil,
               ne_eq, String.reduceEq, not_false_eq_true]
    rfl

theorem toMap_lookup_pattern (s : JSONSchema) :
    goLookup s.toMap "pattern" = strOpt s.pattern := by
  cases s with
  | mk sc props items defs a o al n =>
    rw [JSONSchema.toMap]
    simp only [goLookup_consOpt_ne, goLookup_consOpt_self, goLookup_nil,
               ne_eq, String.reduceEq, not_false_eq_true]
    rfl

theorem toMap_lookup_format (s : JSONSchema) :
    goLookup s.toMap "format" = strOpt s.format := by
  cases s with
  | mk sc props items defs a o al n =>
    rw [JSONSchema.toMap]
    simp only [goLookup_consOpt_ne, goLookup_consOpt_self, goLookup_nil,
               ne_eq, String.reduceEq, not_false_eq_true]
    rfl

theorem toMap_lookup_ref (s : JSONSchema) :
    goLookup s.toMap "$ref" = strOpt s.ref := by
  cases s with
  | mk sc props items defs a o al n =>
    rw [JSONSchema.toMap]
    simp only [goLookup_consOpt_ne, goLookup_consOpt_self, goLookup_nil,
               ne_eq, String.reduceEq, not_false_eq_true]
    rfl

theorem toMap_lookup_minimum (s : JSONSchema) :
    goLookup s.toMap "minimum" = numOpt s.minimum := by
  cases s with
  | mk sc props items defs a o al n =>
    rw [JSONSchema.toMap]
    simp only [goLookup_consOpt_ne, goLookup_consOpt_self, goLookup_nil,
               ne_eq, String.reduceEq, not_false_eq_true]
    rfl

theorem toMap_lookup_maximum (s : JSONSchema) :
    goLookup s.toMap "maximum" = numOpt s.maximum := by
  cases s with
  | mk sc props items defs a o al n =>
    rw [JSONSchema.toMap]
    simp only [goLookup_consOpt_ne, goLookup_consOpt_self, goLookup_nil,
               ne_eq, String.reduceEq, not_false_eq_true]
    rfl

theorem toMap_lookup_minLength (s : JSONSchema) :
    goLookup s.toMap "minLength" = intOpt s.minLength := by
  cases s with
  | mk sc props items defs a o al n =>
    rw [JSONSchema.toMap]
    simp only [goLookup_consOpt_ne, goLookup_consOpt_self, goLookup_nil,
               ne_eq, String.reduceEq, not_false_eq_true]
    rfl

theorem toMap_lookup_maxLength (s : JSONSchema) :
    goLookup s.toMap "maxLength" = intOpt s.maxLength := by
  cases s with
  | mk sc props items defs a o al n =>
    rw [JSONSchema.toMap]
    simp only [goLookup_consOpt_ne, goLookup_consOpt_self, goLookup_nil,
               ne_eq, String.reduceEq, not_false_eq_true]
    rfl

theorem toMap_lookup_const (s : JSONSchema) :
    goLookup s.toMap "const" = s.constVal := by
  cases s with
  | mk sc props items defs a o al n =>
    rw [JSONSchema.toMap]
    simp only [goLookup_consOpt_ne, goLookup_consOpt_self, goLookup_nil,
               ne_eq, String.reduceEq, not_false_eq_true]
    rfl

theorem toMap_lookup_default (s : JSONSchema) :
    goLookup s.toMap "default" = s.defaultVal := by
  cases s with
  | mk sc props items defs a o al n =>
    rw [JSONSchema.toMap]
    simp only [goLookup_consOpt_ne, goLookup_consOpt_self, goLookup_nil,
               ne_eq, String.reduceEq, not_false_eq_true]
    rfl

theorem toMap_lookup_additionalProperties (s : JSONSchema) :
    goLookup s.toMap "additionalProperties" = boolOpt s.additionalProperties := by
  cases s with
  | mk sc props items defs a o al n =>
    rw [JSONSchema.toMap]
    simp only [goLookup_consOpt_ne, goLookup_consOpt_self, goLookup_nil,
               ne_eq, String.reduceEq, not_false_eq_true]
    rfl

theorem toMap_lookup_enum (s : JSONSchema) :
    goLookup s.toMap "enum" = arrOpt s.enum := by
  cases s with
  | mk sc props items defs a o al n =>
    rw [JSONSchema.toMap]
    simp only [goLookup_consOpt_ne, goLookup_consOpt_self, goLookup_nil,
               ne_eq, String.reduceEq, not_false_eq_true]
    rfl

theorem toMap_lookup_properties (s : JSONSchema) :
    goLookup s.toMap "properties" = mapOpt (toMapEntries s.properties) := by
  cases s with
  | mk sc props items defs a o al n =>
    rw [JSONSchema.toMap]
    simp only [goLookup_consOpt_ne, goLookup_consOpt_self, goLookup_nil,
               ne_eq, String.reduceEq, not_false_eq_true]
    rfl

theorem toMap_lookup_items (s : JSONSchema) :
    goLookup s.toMap "items" = toMapOpt s.items := by
  cases s with
  | mk sc props items defs a o al n =>
    rw [JSONSchema.toMap]
    simp only [goLookup_consOpt_ne, goLookup_consOpt_self, goLookup_nil,
               ne_eq, String.reduceEq, not_false_eq_true]
    rfl

theorem toMap_lookup_defs (s : JSONSchema) :
    goLookup s.toMap "$defs" = mapOpt (toMapEntries s.defs) := by
  cases s with
  | mk sc props items defs a o al n =>
    rw [JSONSchema.toMap]
    simp only [goLookup_consOpt_ne, goLookup_consOpt_self, goLookup_nil,
               ne_eq, String.reduceEq, not_false_eq_true]
    rfl

theorem toMap_lookup_anyOf (s : JSONSchema) :
    goLookup s.toMap "anyOf" = arrOpt (toMapList s.anyOf) := by
  cases s with
  | mk sc props items defs a o al n =>
    rw [JSONSchema.toMap]
    simp only [goLookup_consOpt_ne, goLookup_consOpt_self, goLookup_nil,
               ne_eq, String.reduceEq, not_false_eq_true]
    rfl

theorem toMap_lookup_oneOf (s : JSONSchema) :
    goLookup s.toMap "oneOf" = arrOpt (toMapList s.oneOf) := by
  cases s with
  | mk sc props items defs a o al n =>
    rw [JSONSchema.toMap]
    simp only [goLookup_consOpt_ne, goLookup_consOpt_self, goLookup_nil,
               ne_eq, String.reduceEq, not_false_eq_true]
    rfl

theorem toMap_lookup_allOf (s : JSONSchema) :
    goLookup s.toMap "allOf" = arrOpt (toMapList s.allOf) := by
  cases s with
  | mk sc props items defs a o al n =>
    rw [JSONSchema.toMap]
    simp only [goLookup_consOpt_ne, goLookup_consOpt_self, goLookup_nil,
               ne_eq, String.reduceEq, not_false_eq_true]
    rfl

theorem toMap_lookup_not (s : JSONSchema) :
    goLookup s.toMap "not" = toMapOpt s.notSchema := by
  cases s with
  | mk sc props items defs a o al n =>
    rw [JSONSchema.toMap]
    simp only [goLookup_consOpt_ne, goLookup_consOpt_self, goLookup_nil,
               ne_eq, String.reduceEq, not_false_eq_true]
    rfl

/-- Success of the parser on a map splits into success of every nested parse,
with the scalar fields extracted by `scalarPart`. -/
theorem mapToJSONSchema_vmap_ok {m : GoMap} {s : JSONSchema}
    (h : mapToJSONSchema (.vmap m) = .ok s) :
    ∃ props items defs anyOfs oneOfs allOfs nots,
      parsePropsF m = .ok props ∧ parseItemsF m = .ok items ∧
      parseDefsF m = .ok defs ∧ parseCombF m "anyOf" = .ok anyOfs ∧
      parseCombF m "oneOf" = .ok oneOfs ∧ parseCombF m "allOf" = .ok allOfs ∧
      parseNotF m = .ok nots ∧
      s = JSONSchema.mk (scalarPart m) props items defs anyOfs oneOfs allOfs nots := by
  rw [mapToJSONSchema] at h
  cases h1 : parsePropsF m <;> simp [h1] at h
  cases h2 : parseItemsF m <;> simp [h2] at h
  cases h3 : parseDefsF m <;> simp [h3] at h
  cases h4 : parseCombF m "anyOf" <;> simp [h4] at h
  cases h5 : parseCombF m "oneOf" <;> simp [h5] at h
  cases h6 : parseCombF m "allOf" <;> simp [h6] at h
  cases h7 : parseNotF m <;> simp [h7] at h
  exact ⟨_, _, _, _, _, _, _, rfl, rfl, rfl, rfl, rfl, rfl, rfl, h.symm⟩

/-- Conversely, if every nested parse succeeds, the whole parse succeeds. -/
theorem mapToJSONSchema_vmap_mk {m : GoMap} {props : List (String × JSONSchema)}
    {items : Option JSONSchema} {defs : List (String × JSONSchema)}
    {anyOfs oneOfs allOfs : List JSONSchema} {nots : Option JSONSchema}
    (h1 : parsePropsF m = .ok props) (h2 : parseItemsF m = .ok items)
    (h3 : parseDefsF m = .ok defs) (h4 : parseCombF m "anyOf" = .ok anyOfs)
    (h5 : parseCombF m "oneOf" = .ok oneOfs) (h6 : parseCombF m "allOf" = .ok allOfs)
    (h7 : parseNotF m = .ok nots) :
    mapToJSONSchema (.vmap m) =
      .ok (JSONSchema.mk (scalarPart m) props items defs anyOfs oneOfs allOfs nots) := by
  rw [mapToJSONSchema]
  simp [h1, h2, h3, h4, h5, h6, h7]

/-- Non-dependent unfolding of `parsePropsF`. -/
theorem parsePropsF_eq (m : GoMap) :
    parsePropsF m =
      (match goLookup m "properties" with
       | some (.vmap pm) => parseEntries pm
       | _ => pure []) := by
  rw [parsePropsF]
  rcases h : goLookup m "properties" with _ | v
  · rfl
  · cases v <;> rfl

/-- Non-dependent unfolding of `parseItemsF`. -/
theorem parseItemsF_eq (m : GoMap) :
    parseItemsF m =
      (match goLookup m "items" with
       | some v => mapToJSONSchema v >>= fun s => pure (some s)
       | none => pure none) := by
  rw [parseItemsF]
  rcases h : goLookup m "items" with _ | v <;> rfl

/-- Non-dependent unfolding of `parseDefsF`. -/
theorem parseDefsF_eq (m : GoMap) :
    parseDefsF m =
      (match goLookup m "$defs" with
       | some (.vmap dm) => parseEntries dm
       | _ => pure []) := by
  rw [parseDefsF]
  rcases h : goLookup m "$defs" with _ | v
  · rfl
  · cases v <;> rfl

/-- Non-dependent unfolding of `parseCombF`. -/
theorem parseCombF_eq (m : GoMap) (k : String) :
    parseCombF m k =
      (match goLookup m k with
       | some (.varr l) => parseSchemaList l
       | _ => pure []) := by
  rw [parseCombF]
  rcases h : goLookup m k with _ | v
  · rfl
  · cases v <;> rfl

/-- Non-dependent unfolding of `parseNotF`. -/
theorem parseNotF_eq (m : GoMap) :
    parseNotF m =
      (match goLookup m "not" with
       | some v => mapToJSONSchema v >>= fun s => pure (some s)
       | none => pure none) := by
  rw [parseNotF]
  rcases h : goLookup m "not" with _ | v <;> rfl

/-- Structure of a successful `OpenAIAdapter.ToCanonical` result. -/
theorem openaiToCanonicalFn_inv {fn : OpenAIFunction} {ct : CanonicalTool}
    (h : openaiToCanonicalFn fn = .ok ct) :
    ct.name = fn.name ∧ ct.description = fn.description ∧
    ct.sourceMeta = some (if fn.strict then [("strict", GoVal.vbool true)] else []) ∧
    (match fn.parameters with
     | some pm => ∃ s, mapToJSONSchema (.vmap pm) = .ok s ∧ ct.inputSchema = some s
     | none => ct.inputSchema = none) := by
  rw [openaiToCanonicalFn] at h
  cases hp : fn.parameters with
  | none =>
    simp only [hp, ebind_ok, epure_eq_ok, Except.ok.injEq] at h
    subst h
    exact ⟨rfl, rfl, rfl, rfl⟩
  | some pm =>
    simp only [hp] at h
    cases hps : mapToJSONSchema (.vmap pm) with
    | error e => simp [hps] at h
    | ok s =>
      simp only [hps, ebind_ok, epure_eq_ok, Except.ok.injEq] at h
      subst h
      exact ⟨rfl, rfl, rfl, s, hps, rfl⟩

/-- `OpenAIAdapter.ToCanonical` on a function without parameters. -/
theorem openaiToCanonicalFn_eq_none {fn : OpenAIFunction} (hp : fn.parameters = none) :
    openaiToCanonicalFn fn =
      .ok { name := fn.name, description := fn.description, sourceFormat := "openai",
            sourceMeta := some (if fn.strict then [("strict", GoVal.vbool true)] else []),
            inputSchema := none } := by
  rw [openaiToCanonicalFn]
  simp [hp]

/-- `OpenAIAdapter.ToCanonical` on a function whose parameters parse. -/
theorem openaiToCanonicalFn_eq_some {fn : OpenAIFunction} {pm : GoMap} {s : JSONSchema}
    (hp : fn.parameters = some pm) (hs : mapToJSONSchema (.vmap pm) = .ok s) :
    openaiToCanonicalFn fn =
      .ok { name := fn.name, description := fn.description, sourceFormat := "openai",
            sourceMeta := some (if fn.strict then [("strict", GoVal.vbool true)] else []),
            inputSchema := some s } := by
  rw [openaiToCanonicalFn]
  simp [hp, hs]

/-- Structure of a successful `AnthropicAdapter.ToCanonical` result. -/
theorem anthropicToCanonicalFn_inv {tool : AnthropicTool} {ct : CanonicalTool}
    (h : anthropicToCanonicalFn tool = .ok ct) :
    ct.name = tool.name ∧ ct.description = tool.description ∧
    ct.sourceMeta = some [] ∧
    (match tool.inputSchema with
     | some pm => ∃ s, mapToJSONSchema (.vmap pm) = .ok s ∧ ct.inputSchema = some s
     | none => ct.inputSchema = none) := by
  rw [anthropicToCanonicalFn] at h
  cases hp : tool.inputSchema with
  | none =>
    simp only [hp, ebind_ok, epure_eq_ok, Except.ok.injEq] at h
    subst h
    exact ⟨rfl, rfl, rfl, rfl⟩
  | some pm =>
    simp only [hp] at h
    cases hps : mapToJSONSchema (.vmap pm) with
    | error e => simp [hps] at h
    | ok s =>
      simp only [hps, ebind_ok, epure_eq_ok, Except.ok.injEq] at h
      subst h
      exact ⟨rfl, rfl, rfl, s, hps, rfl⟩

/-- `AnthropicAdapter.ToCanonical` on a tool without an input schema. -/
theorem anthropicToCanonicalFn_eq_none {tool : AnthropicTool}
    (hp : tool.inputSchema = none) :
    anthropicToCanonicalFn tool =
      .ok { name := tool.name, description := tool.description,
            sourceFormat := "anthropic", sourceMeta := some [],
            inputSchema := none } := by
  rw [anthropicToCanonicalFn]
  simp [hp]

/-- `AnthropicAdapter.ToCanonical` on a tool whose input schema parses. -/
theorem anthropicToCanonicalFn_eq_some {tool : AnthropicTool} {pm : GoMap} {s : JSONSchema}
    (hp : tool.inputSchema = some pm) (hs : mapToJSONSchema (.vmap pm) = .ok s) :
    anthropicToCanonicalFn tool =
      .ok { name := tool.name, description := tool.description,
            sourceFormat := "anthropic", sourceMeta := some [],
            inputSchema := some s } := by
  rw [anthropicToCanonicalFn]
  simp [hp, hs]

/-- Structure of a successful `MCPAdapter.ToCanonical` result. -/
theorem mcpToCanonicalFn_inv {tool : MCPTool} {ct : CanonicalTool}
    (h : mcpToCanonicalFn tool = .ok ct) :
    ct.name = tool.name ∧ ct.description = tool.description ∧
    ct.sourceMeta = some (if tool.title ≠ "" then [("title", GoVal.vstr tool.title)] else []) ∧
    (match tool.inputSchema with
     | some v => ∃ s, mapToJSONSchema v = .ok s ∧ ct.inputSchema = some s
     | none => ct.inputSchema = none) ∧
    (match tool.outputSchema with
     | some v => ∃ s, mapToJSONSchema v = .ok s ∧ ct.outputSchema = some s
     | none => ct.outputSchema = none) := by
  rw [mcpToCanonicalFn] at h
  cases hp : tool.inputSchema with
  | none =>
    simp only [hp, ebind_ok, epure_eq_ok] at h
    cases hq : tool.outputSchema with
    | none =>
      simp only [hq, ebind_ok, epure_eq_ok, Except.ok.injEq] at h
      subst h
      exact ⟨rfl, rfl, rfl, rfl, rfl⟩
    | some w =>
      simp only [hq] at h
      cases hqs : mapToJSONSchema w with
      | error e => simp [hqs] at h
      | ok s =>
        simp only [hqs, ebind_ok, epure_eq_ok, Except.ok.injEq] at h
        subst h
        exact ⟨rfl, rfl, rfl, rfl, s, hqs, rfl⟩
  | some v =>
    simp only [hp] at h
    cases hps : mapToJSONSchema v with
    | error e => simp [hps] at h
    | ok si =>
      simp only [hps, ebind_ok, epure_eq_ok] at h
      cases hq : tool.outputSchema with
      | none =>
        simp only [hq, ebind_ok, epure_eq_ok, Except.ok.injEq] at h
        subst h
        exact ⟨rfl, rfl, rfl, ⟨si, hps, rfl⟩, rfl⟩
      | some w =>
        simp only [hq] at h
        cases hqs : mapToJSONSchema w with
        | error e => simp [hqs] at h
        | ok so =>
          simp only [hqs, ebind_ok, epure_eq_ok, Except.ok.injEq] at h
          subst h
          exact ⟨rfl, rfl, rfl, ⟨si, hps, rfl⟩, so, hqs, rfl⟩

/-- `MCPAdapter.ToCanonical` on a tool with both schema fields nil. -/
theorem mcpToCanonicalFn_eq_none {tool : MCPTool}
    (hp : tool.inputSchema = none) (hq : tool.outputSchema = none) :
    mcpToCanonicalFn tool =
      .ok { name := tool.name, description := tool.description, sourceFormat := "mcp",
            sourceMeta := some (if tool.title ≠ "" then [("title", GoVal.vstr tool.title)] else []),
            inputSchema := none, outputSchema := none } := by
  rw [mcpToCanonicalFn]
  simp [hp, hq]

/-- `MCPAdapter.ToCanonical` when both schemas are present and parse. -/
theorem mcpToCanonicalFn_eq_some {tool : MCPTool} {v : GoVal} {s : JSONSchema}
    (hp : tool.inputSchema = some v) (hs : mapToJSONSchema v = .ok s)
    (hq : tool.outputSchema = none) :
    mcpToCanonicalFn tool =
      .ok { name := tool.name, description := tool.description, sourceFormat := "mcp",
            sourceMeta := some (if tool.title ≠ "" then [("title", GoVal.vstr tool.title)] else []),
            inputSchema := some s, outputSchema := none } := by
  rw [mcpToCanonicalFn]
  simp [hp, hs, hq]

/-- An unrecognized head key does not change `parsePropsF`. -/
theorem parsePropsF_cons_ne {k : String} (h : k ≠ "properties") (v : GoVal) (m : GoMap) :
    parsePropsF ((k, v) :: m) = parsePropsF m := by
  rw [parsePropsF_eq, parsePropsF_eq, goLookup_cons_ne h]

/-- An unrecognized head key does not change `parseItemsF`. -/
theorem parseItemsF_cons_ne {k : String} (h : k ≠ "items") (v : GoVal) (m : GoMap) :
    parseItemsF ((k, v) :: m) = parseItemsF m := by
  rw [parseItemsF_eq, parseItemsF_eq, goLookup_cons_ne h]

/-- An unrecognized head key does not change `parseDefsF`. -/
theorem parseDefsF_cons_ne {k : String} (h : k ≠ "$defs") (v : GoVal) (m : GoMap) :
    parseDefsF ((k, v) :: m) = parseDefsF m := by
  rw [parseDefsF_eq, parseDefsF_eq, goLookup_cons_ne h]

/-- An unrecognized head key does not change `parseCombF`. -/
theorem parseCombF_cons_ne {k key : String} (h : k ≠ key) (v : GoVal) (m : GoMap) :
    parseCombF ((k, v) :: m) key = parseCombF m key := by
  rw [parseCombF_eq, parseCombF_eq, goLookup_cons_ne h]

/-- An unrecognized head key does not change `parseNotF`. -/
theorem parseNotF_cons_ne {k : String} (h : k ≠ "not") (v : GoVal) (m : GoMap) :
    parseNotF ((k, v) :: m) = parseNotF m := by
  rw [parseNotF_eq, parseNotF_eq, goLookup_cons_ne h]

/-- An unrecognized head key does not change any scalar extraction. -/
theorem scalarPart_cons_ne {k : String} (h : k ∉ recognizedKeys) (v : GoVal) (m : GoMap) :
    scalarPart ((k, v) :: m) = scalarPart m := by
  have hne : ∀ key, key ∈ recognizedKeys → k ≠ key := fun key hkey heq => h (heq ▸ hkey)
  unfold scalarPart getStr getNum getLen getBool getAny getRequired getArr
  rw [goLookup_cons_ne (hne "type" (by decide)),
      goLookup_cons_ne (hne "description" (by decide)),
      goLookup_cons_ne (hne "pattern" (by decide)),
      goLookup_cons_ne (hne "format" (by decide)),
      goLookup_cons_ne (hne "$ref" (by decide)),
      goLookup_cons_ne (hne "minimum" (by decide)),
      goLookup_cons_ne (hne "maximum" (by decide)),
      goLookup_cons_ne (hne "minLength" (by decide)),
      goLookup_cons_ne (hne "maxLength" (by decide)),
      goLookup_cons_ne (hne "const" (by decide)),
      goLookup_cons_ne (hne "default" (by decide)),
      goLookup_cons_ne (hne "additionalProperties" (by decide)),
      goLookup_cons_ne (hne "enum" (by decide)),
      goLookup_cons_ne (hne "required" (by decide))]

/-- Parsing a schema map and projecting it back via `ToMap` preserves every
populated root leaf constraint. -/
theorem parse_toMap_preserves {m : GoMap} {s : JSONSchema}
    (h : mapToJSONSchema (.vmap m) = .ok s) :
    leafPreserved m s.toMap ∧ apPreserved m s.toMap ∧ refPreserved m s.toMap := by
  obtain ⟨props, items, defs, a, o, al, n, -, -, -, -, -, -, -, hs⟩ :=
    mapToJSONSchema_vmap_ok h
  have hsc : s.scalars = scalarPart m := by rw [hs]; rfl
  refine ⟨⟨?_, ?_, ?_, ?_, ?_, ?_, ?_, ?_, ?_, ?_, ?_, ?_, ?_⟩, ?_, ?_⟩
  · intro str h1 h2
    rw [toMap_lookup_type]
    have : s.type = str := by
      simp [JSONSchema.type, hsc, scalarPart, getStr, h1]
    rw [this]
    simp [strOpt, h2]
  · intro str h1 h2
    rw [toMap_lookup_description]
    have : s.description = str := by
      simp [JSONSchema.description, hsc, scalarPart, getStr, h1]
    rw [this]
    simp [strOpt, h2]
  · intro str h1 h2
    rw [toMap_lookup_pattern]
    have : s.pattern = str := by
      simp [JSONSchema.pattern, hsc, scalarPart, getStr, h1]
    rw [this]
    simp [strOpt, h2]
  · intro str h1 h2
    rw [toMap_lookup_format]
    have : s.format = str := by
      simp [JSONSchema.format, hsc, scalarPart, getStr, h1]
    rw [this]
    simp [strOpt, h2]
  · intro q h1
    rw [toMap_lookup_minimum]
    have : s.minimum = some q := by
      simp [JSONSchema.minimum, hsc, scalarPart, getNum, h1]
    rw [this]
    rfl
  · intro nn h1
    rw [toMap_lookup_minimum]
    have : s.minimum = some (nn : Rat) := by
      simp [JSONSchema.minimum, hsc, scalarPart, getNum, h1]
    rw [this]
    rfl
  · intro q h1
    rw [toMap_lookup_maximum]
    have : s.maximum = some q := by
      simp [JSONSchema.maximum, hsc, scalarPart, getNum, h1]
    rw [this]
    rfl
  · intro nn h1
    rw [toMap_lookup_maximum]
    have : s.maximum = some (nn : Rat) := by
      simp [JSONSchema.maximum, hsc, scalarPart, getNum, h1]
    rw [this]
    rfl
  · intro nn h1
    rw [toMap_lookup_minLength]
    have : s.minLength = some nn := by
      simp [JSONSchema.minLength, hsc, scalarPart, getLen, h1]
    rw [this]
    rfl
  · intro nn h1
    rw [toMap_lookup_maxLength]
    have : s.maxLength = some nn := by
      simp [JSONSchema.maxLength, hsc, scalarPart, getLen, h1]
    rw [this]
    rfl
  · intro l h1 h2
    rw [toMap_lookup_enum]
    have : s.enum = l := by
      simp [JSONSchema.enum, hsc, scalarPart, getArr, h1]
    rw [this]
    cases l with
    | nil => exact absurd rfl h2
    | cons x xs => rfl
  · intro v h1 h2
    rw [toMap_lookup_const]
    have : s.constVal = some v := by
      cases v <;> simp_all [JSONSchema.constVal, hsc, scalarPart, getAny]
    rw [this]
  · intro v h1 h2
    rw [toMap_lookup_default]
    have : s.defaultVal = some v := by
      cases v <;> simp_all [JSONSchema.defaultVal, hsc, scalarPart, getAny]
    rw [this]
  · intro b h1
    rw [toMap_lookup_additionalProperties]
    have : s.additionalProperties = some b := by
      simp [JSONSchema.additionalProperties, hsc, scalarPart, getBool, h1]
    rw [this]
    rfl
  · intro str h1 h2
    rw [toMap_lookup_ref]
    have : s.ref = str := by
      simp [JSONSchema.ref, hsc, scalarPart, getStr, h1]
    rw [this]
    simp [strOpt, h2]

/-- Leaf preservation survives any output-map change that keeps the lookups
of all keys other than `additionalProperties`. -/
theorem leafPreserved_mono {inm outm outm' : GoMap}
    (hkeep : ∀ k, k ≠ "additionalProperties" → goLookup outm' k = goLookup outm k)
    (h : leafPreserved inm outm) : leafPreserved inm outm' := by
  obtain ⟨h1, h2, h3, h4, h5, h6, h7, h8, h9, h10, h11, h12, h13⟩ := h
  refine ⟨?_, ?_, ?_, ?_, ?_, ?_, ?_, ?_, ?_, ?_, ?_, ?_, ?_⟩
  · intro str a b; rw [hkeep "type" (by decide)]; exact h1 str a b
  · intro str a b; rw [hkeep "description" (by decide)]; exact h2 str a b
  · intro str a b; rw [hkeep "pattern" (by decide)]; exact h3 str a b
  · intro str a b; rw [hkeep "format" (by decide)]; exact h4 str a b
  · intro q a; rw [hkeep "minimum" (by decide)]; exact h5 q a
  · intro nn a; rw [hkeep "minimum" (by decide)]; exact h6 nn a
  · intro q a; rw [hkeep "maximum" (by decide)]; exact h7 q a
  · intro nn a; rw [hkeep "maximum" (by decide)]; exact h8 nn a
  · intro nn a; rw [hkeep "minLength" (by decide)]; exact h9 nn a
  · intro nn a; rw [hkeep "maxLength" (by decide)]; exact h10 nn a
  · intro l a b; rw [hkeep "enum" (by decide)]; exact h11 l a b
  · intro v a b; rw [hkeep "const" (by decide)]; exact h12 v a b
  · intro v a b; rw [hkeep "default" (by decide)]; exact h13 v a b

/-- Only a map value can parse successfully. -/
theorem mapToJSONSchema_ok_vmap {v : GoVal} {s : JSONSchema}
    (h : mapToJSONSchema v = .ok s) : ∃ m, v = .vmap m := by
  cases v
  case vmap m => exact ⟨m, rfl⟩
  all_goals (rw [mapToJSONSchema.eq_def] at h; simp at h)

/-- `parseEntries` parses each looked-up entry value in place. -/
theorem parseEntries_lookup :
    ∀ {pm : List (String × GoVal)} {props : List (String × JSONSchema)},
    parseEntries pm = .ok props →
    ∀ {k : String} {v : GoVal}, goLookup pm k = some v →
    ∃ s', mapToJSONSchema v = .ok s' ∧ lookupSchemas props k = some s' := by
  intro pm
  induction pm with
  | nil =>
    intro props h k v hk
    simp [goLookup] at hk
  | cons p rest ih =>
    obtain ⟨k', v'⟩ := p
    intro props h k v hk
    rw [parseEntries] at h
    cases hv : mapToJSONSchema v' with
    | error e => simp [hv] at h
    | ok s0 =>
      simp only [hv, ebind_ok] at h
      cases hr : parseEntries rest with
      | error e => simp [hr] at h
      | ok tail =>
        simp only [hr, ebind_ok, epure_eq_ok, Except.ok.injEq] at h
        subst h
        by_cases hkk : k' = k
        · simp only [goLookup, if_pos hkk] at hk
          cases hk
          exact ⟨s0, hv, by simp [lookupSchemas, hkk]⟩
        · rw [goLookup_cons_ne hkk] at hk
          obtain ⟨s', hs', hl⟩ := ih hr hk
          exact ⟨s', hs', by simp [lookupSchemas, hkk, hl]⟩

/-- `toMapEntries` projects each parsed entry back in place. -/
theorem toMapEntries_lookup :
    ∀ {props : List (String × JSONSchema)} {k : String} {s' : JSONSchema},
    lookupSchemas props k = some s' →
    goLookup (toMapEntries props) k = some (.vmap s'.toMap) := by
  intro props
  induction props with
  | nil =>
    intro k s' h
    simp [lookupSchemas] at h
  | cons p rest ih =>
    obtain ⟨k', sx⟩ := p
    intro k s' h
    rw [toMapEntries]
    by_cases hkk : k' = k
    · simp only [lookupSchemas, if_pos hkk] at h
      cases h
      simp [goLookup, hkk]
    · simp only [lookupSchemas, if_neg hkk] at h
      simp [goLookup, hkk, ih h]

theorem mapOpt_ne_nil {l : GoMap} (h : l ≠ []) : mapOpt l = some (.vmap l) := by
  cases l with
  | nil => exact absurd rfl h
  | cons x xs => rfl

theorem arrOpt_ne_nil {l : List GoVal} (h : l ≠ []) : arrOpt l = some (.varr l) := by
  cases l with
  | nil => exact absurd rfl h
  | cons x xs => rfl

theorem parseSchemaList_ne_nil {l : List GoVal} {lst : List JSONSchema}
    (h : parseSchemaList l = .ok lst) (hne : l ≠ []) : lst ≠ [] := by
  cases l with
  | nil => exact absurd rfl hne
  | cons v rest =>
    rw [parseSchemaList] at h
    cases hv : mapToJSONSchema v with
    | error e => simp [hv] at h
    | ok s0 =>
      simp only [hv, ebind_ok] at h
      cases hr : parseSchemaList rest with
      | error e => simp [hr] at h
      | ok tail =>
        simp only [hr, ebind_ok, epure_eq_ok, Except.ok.injEq] at h
        subst h
        simp

theorem toMapList_ne_nil {lst : List JSONSchema} (h : lst ≠ []) :
    toMapList lst ≠ [] := by
  cases lst with
  | nil => exact absurd rfl h
  | cons s rest =>
    rw [toMapList]
    simp

/-- Each successfully parsed combinator sequence is pointwise deeply
preserved by the `toMapList` projection, given deep preservation of the
elements. -/
theorem parseSchemaList_deepList :
    ∀ {l : List GoVal} {lst : List JSONSchema},
    parseSchemaList l = .ok lst →
    (∀ (sub : GoMap) (s' : JSONSchema), GoVal.vmap sub ∈ l →
      mapToJSONSchema (.vmap sub) = .ok s' → deepPreserved sub s'.toMap) →
    deepList l (toMapList lst) := by
  intro l
  induction l with
  | nil =>
    intro lst h rec
    rw [parseSchemaList] at h
    simp only [epure_eq_ok, Except.ok.injEq] at h
    subst h
    rw [toMapList]
    simp [deepList]
  | cons v rest ih =>
    intro lst h rec
    rw [parseSchemaList] at h
    cases hv : mapToJSONSchema v with
    | error e => simp [hv] at h
    | ok s0 =>
      simp only [hv, ebind_ok] at h
      cases hr : parseSchemaList rest with
      | error e => simp [hr] at h
      | ok tail =>
        simp only [hr, ebind_ok, epure_eq_ok, Except.ok.injEq] at h
        subst h
        rw [toMapList]
        rw [deepList]
        constructor
        · intro sub hsub
          subst hsub
          exact ⟨s0.toMap, rfl, rec sub s0 (List.mem_cons_self _ _) hv⟩
        · exact ih hr fun sub s' hm hp => rec sub s' (List.mem_cons_of_mem _ hm) hp

/-- Parsing a schema map and projecting it back via `ToMap` deeply preserves
the whole schema tree: strong induction on the size of the input map. -/
theorem parse_toMap_deep_aux :
    ∀ (N : Nat) (m : GoMap) (s : JSONSchema), sizeOf m ≤ N →
      mapToJSONSchema (.vmap m) = .ok s → deepPreserved m s.toMap := by
  intro N
  induction N using Nat.strong_induction_on with
  | _ N ih =>
    intro m s hN h
    obtain ⟨props, items, defs, a, o, al, n, h1, h2, h3, h4, h5, h6, h7, hs⟩ :=
      mapToJSONSchema_vmap_ok h
    obtain ⟨hleaf, hap, href⟩ := parse_toMap_preserves h
    subst hs
    rw [deepPreserved]
    refine ⟨hleaf, hap, href, ?_, ?_, ?_, ?_, ?_, ?_, ?_⟩
    · -- properties
      intro pm hp k sub hk
      simp only [parsePropsF_eq, hp] at h1
      obtain ⟨s', hps', hlook⟩ := parseEntries_lookup h1 hk
      have hout := toMapEntries_lookup hlook
      have htne : toMapEntries props ≠ [] := by
        intro hnil
        rw [hnil] at hout
        simp [goLookup] at hout
      refine ⟨toMapEntries props, ?_, s'.toMap, hout, ?_⟩
      · rw [toMap_lookup_properties]
        simp only [JSONSchema.properties]
        exact mapOpt_ne_nil htne
      · have hlt : sizeOf sub < N := by
          have a1 := goLookup_sizeOf hp
          have a2 := goLookup_sizeOf hk
          simp only [GoVal.vmap.sizeOf_spec] at a1 a2
          omega
        exact ih (sizeOf sub) hlt sub s' le_rfl hps'
    · -- items
      intro im him
      simp only [parseItemsF_eq, him] at h2
      cases hpv : mapToJSONSchema (.vmap im) with
      | error e => simp [hpv] at h2
      | ok si =>
        simp only [hpv, ebind_ok, epure_eq_ok, Except.ok.injEq] at h2
        refine ⟨si.toMap, ?_, ?_⟩
        · rw [toMap_lookup_items]
          simp only [JSONSchema.items]
          rw [← h2]
          simp [toMapOpt]
        · have hlt : sizeOf im < N := by
            have a1 := goLookup_sizeOf him
            simp only [GoVal.vmap.sizeOf_spec] at a1
            omega
          exact ih (sizeOf im) hlt im si le_rfl hpv
    · -- $defs
      intro dm hd k sub hk
      simp only [parseDefsF_eq, hd] at h3
      obtain ⟨s', hps', hlook⟩ := parseEntries_lookup h3 hk
      have hout := toMapEntries_lookup hlook
      have htne : toMapEntries defs ≠ [] := by
        intro hnil
        rw [hnil] at hout
        simp [goLookup] at hout
      refine ⟨toMapEntries defs, ?_, s'.toMap, hout, ?_⟩
      · rw [toMap_lookup_defs]
        simp only [JSONSchema.defs]
        exact mapOpt_ne_nil htne
      · have hlt : sizeOf sub < N := by
          have a1 := goLookup_sizeOf hd
          have a2 := goLookup_sizeOf hk
          simp only [GoVal.vmap.sizeOf_spec] at a1 a2
          omega
        exact ih (sizeOf sub) hlt sub s' le_rfl hps'
    · -- anyOf
      intro l hl hne
      simp only [parseCombF_eq, hl] at h4
      refine ⟨toMapList a, ?_, ?_⟩
      · rw [toMap_lookup_anyOf]
        simp only [JSONSchema.anyOf]
        exact arrOpt_ne_nil (toMapList_ne_nil (parseSchemaList_ne_nil h4 hne))
      · refine parseSchemaList_deepList h4 fun sub s' hm hp => ?_
        have hlt : sizeOf sub < N := by
          have a1 := goLookup_sizeOf hl
          have a2 := List.sizeOf_lt_of_mem hm
          simp only [GoVal.varr.sizeOf_spec, GoVal.vmap.sizeOf_spec] at a1 a2
          omega
        exact ih (sizeOf sub) hlt sub s' le_rfl hp
    · -- oneOf
      intro l hl hne
      simp only [parseCombF_eq, hl] at h5
      refine ⟨toMapList o, ?_, ?_⟩
      · rw [toMap_lookup_oneOf]
        simp only [JSONSchema.oneOf]
        exact arrOpt_ne_nil (toMapList_ne_nil (parseSchemaList_ne_nil h5 hne))
      · refine parseSchemaList_deepList h5 fun sub s' hm hp => ?_
        have hlt : sizeOf sub < N := by
          have a1 := goLookup_sizeOf hl
          have a2 := List.sizeOf_lt_of_mem hm
          simp only [GoVal.varr.sizeOf_spec, GoVal.vmap.sizeOf_spec] at a1 a2
          omega
        exact ih (sizeOf sub) hlt sub s' le_rfl hp
    · -- allOf
      intro l hl hne
      simp only [parseCombF_eq, hl] at h6
      refine ⟨toMapList al, ?_, ?_⟩
      · rw [toMap_lookup_allOf]
        simp only [JSONSchema.allOf]
        exact arrOpt_ne_nil (toMapList_ne_nil (parseSchemaList_ne_nil h6 hne))
      · refine parseSchemaList_deepList h6 fun sub s' hm hp => ?_
        have hlt : sizeOf sub < N := by
          have a1 := goLookup_sizeOf hl
          have a2 := List.sizeOf_lt_of_mem hm
          simp only [GoVal.varr.sizeOf_spec, GoVal.vmap.sizeOf_spec] at a1 a2
          omega
        exact ih (sizeOf sub) hlt sub s' le_rfl hp
    · -- not
      intro nm hn
      simp only [parseNotF_eq, hn] at h7
      cases hpv : mapToJSONSchema (.vmap nm) with
      | error e => simp [hpv] at h7
      | ok sn =>
        simp only [hpv, ebind_ok, epure_eq_ok, Except.ok.injEq] at h7
        refine ⟨sn.toMap, ?_, ?_⟩
        · rw [toMap_lookup_not]
          simp only [JSONSchema.notSchema]
          rw [← h7]
          simp [toMapOpt]
        · have hlt : sizeOf nm < N := by
            have a1 := goLookup_sizeOf hn
            simp only [GoVal.vmap.sizeOf_spec] at a1
            omega
          exact ih (sizeOf nm) hlt nm sn le_rfl hpv

/-- Parsing a schema map and projecting it back deeply preserves the whole
schema tree. -/
theorem parse_toMap_deep {m : GoMap} {s : JSONSchema}
    (h : mapToJSONSchema (.vmap m) = .ok s) : deepPreserved m s.toMap :=
  parse_toMap_deep_aux (sizeOf m) m s le_rfl h

/-- `deepPreserved` splits into the root clauses plus the nested part. -/
theorem deepPreserved_iff (inm outm : GoMap) :
    deepPreserved inm outm ↔
      leafPreserved inm outm ∧ apPreserved inm outm ∧ refPreserved inm outm ∧
      deepNested inm outm := by
  rw [deepPreserved, deepNested]

/-- The nested part of deep preservation survives the strict-mode root
override, which only touches the root `additionalProperties` key. -/
theorem deepNested_goSet {inm outm : GoMap} (h : deepNested inm outm) :
    deepNested inm (goSet outm "additionalProperties" (.vbool false)) := by
  obtain ⟨p1, p2, p3, p4, p5, p6, p7⟩ := h
  refine ⟨?_, ?_, ?_, ?_, ?_, ?_, ?_⟩
  · intro pm hp k sub hk
    obtain ⟨pm', hpm', rest⟩ := p1 pm hp k sub hk
    exact ⟨pm', by rw [goLookup_goSet_ne (by decide)]; exact hpm', rest⟩
  · intro im him
    obtain ⟨im', him', rest⟩ := p2 im him
    exact ⟨im', by rw [goLookup_goSet_ne (by decide)]; exact him', rest⟩
  · intro dm hd k sub hk
    obtain ⟨dm', hdm', rest⟩ := p3 dm hd k sub hk
    exact ⟨dm', by rw [goLookup_goSet_ne (by decide)]; exact hdm', rest⟩
  · intro l hl hne
    obtain ⟨l', hl', rest⟩ := p4 l hl hne
    exact ⟨l', by rw [goLookup_goSet_ne (by decide)]; exact hl', rest⟩
  · intro l hl hne
    obtain ⟨l', hl', rest⟩ := p5 l hl hne
    exact ⟨l', by rw [goLookup_goSet_ne (by decide)]; exact hl', rest⟩
  · intro l hl hne
    obtain ⟨l', hl', rest⟩ := p6 l hl hne
    exact ⟨l', by rw [goLookup_goSet_ne (by decide)]; exact hl', rest⟩
  · intro nm hn
    obtain ⟨nm', hnm', rest⟩ := p7 nm hn
    exact ⟨nm', by rw [goLookup_goSet_ne (by decide)]; exact hnm', rest⟩

/-! ## Claim theorems -/

/-- A failing entry value makes `parseEntries` fail. -/
theorem parseEntries_mem_error {pm : List (String × GoVal)} {k : String} {v : GoVal}
    {e : String} (hmem : (k, v) ∈ pm) (hfail : mapToJSONSchema v = .error e) :
    ∃ e', parseEntries pm = .error e' := by
  induction pm with
  | nil => simp at hmem
  | cons p rest ih =>
    obtain ⟨k', v'⟩ := p
    rw [parseEntries]
    cases hv : mapToJSONSchema v' with
    | error e2 => exact ⟨e2, by simp [hv]⟩
    | ok s =>
      rcases List.mem_cons.mp hmem with heq | hmem'
      · injection heq with hk hvv
        subst hk
        subst hvv
        rw [hv] at hfail
        exact absurd hfail (by simp)
      · obtain ⟨e', he'⟩ := ih hmem'
        exact ⟨e', by simp [hv, he']⟩

/-- A failing element makes `parseSchemaList` fail. -/
theorem parseSchemaList_mem_error {l : List GoVal} {v : GoVal} {e : String}
    (hmem : v ∈ l) (hfail : mapToJSONSchema v = .error e) :
    ∃ e', parseSchemaList l = .error e' := by
  induction l with
  | nil => simp at hmem
  | cons v' rest ih =>
    rw [parseSchemaList]
    cases hv : mapToJSONSchema v' with
    | error e2 => exact ⟨e2, by simp [hv]⟩
    | ok s =>
      rcases List.mem_cons.mp hmem with heq | hmem'
      · subst heq
        rw [hv] at hfail
        exact absurd hfail (by simp)
      · obtain ⟨e', he'⟩ := ih hmem'
        exact ⟨e', by simp [hv, he']⟩

/-- If any of the seven nested parse components fails, the whole parse
fails. -/
theorem mapToJSONSchema_vmap_error_of {m : GoMap}
    (h : (∃ e, parsePropsF m = .error e) ∨ (∃ e, parseItemsF m = .error e) ∨
         (∃ e, parseDefsF m = .error e) ∨ (∃ e, parseCombF m "anyOf" = .error e) ∨
         (∃ e, parseCombF m "oneOf" = .error e) ∨
         (∃ e, parseCombF m "allOf" = .error e) ∨
         (∃ e, parseNotF m = .error e)) :
    ∃ e', mapToJSONSchema (.vmap m) = .error e' := by
  cases hok : mapToJSONSchema (.vmap m) with
  | error e => exact ⟨e, rfl⟩
  | ok s =>
    obtain ⟨props, items, defs, a, o, al, n, h1, h2, h3, h4, h5, h6, h7, -⟩ :=
      mapToJSONSchema_vmap_ok hok
    rcases h with ⟨e, h⟩ | ⟨e, h⟩ | ⟨e, h⟩ | ⟨e, h⟩ | ⟨e, h⟩ | ⟨e, h⟩ | ⟨e, h⟩ <;>
      simp_all

/-- C3 (amended): for each adapter, the round trip
`FromCanonical (ToCanonical t)` succeeds on every raw tool the adapter's
`ToCanonical` accepts and preserves the name, the description, and —
recursively, throughout the whole schema tree via `deepPreserved` (nested
`properties`, `items`, `$defs`, the combinator sequences and `not`) — the
schema's `type` and every populated leaf constraint expressible by the
format (with the numeric int-to-float normalization), `additionalProperties`
and `$ref` included; the MCP adapter restores the title and the OpenAI
adapter restores the strict flag.  Sole exception, forced by the
counterexample: for the OpenAI adapter in strict mode the root (and only the
root) `additionalProperties` is forced to `false` instead of being
preserved — the nested part `deepNested` still holds in full. -/
theorem adapter_roundtrip_preservation :
    (∀ (t : MCPTool) (ct : CanonicalTool), mcpToCanonical (.mcpVal t) = .ok ct →
      ∃ t' : MCPTool, mcpFromCanonical (some ct) = .ok t' ∧
        t'.name = t.name ∧ t'.description = t.description ∧ t'.title = t.title ∧
        (∀ m, t.inputSchema = some (.vmap m) →
          ∃ m', t'.inputSchema = some (.vmap m') ∧ deepPreserved m m')) ∧
    (∀ (fn : OpenAIFunction) (ct : CanonicalTool),
      openaiToCanonical (.openaiVal fn) = .ok ct →
      ∃ fn' : OpenAIFunction, openaiFromCanonical (some ct) = .ok fn' ∧
        fn'.name = fn.name ∧ fn'.description = fn.description ∧
        fn'.strict = fn.strict ∧
        (∀ pm, fn.parameters = some pm →
          ∃ pm', fn'.parameters = some pm' ∧
            (fn.strict = false → deepPreserved pm pm') ∧
            (fn.strict = true → leafPreserved pm pm' ∧ refPreserved pm pm' ∧
              deepNested pm pm' ∧
              goLookup pm' "additionalProperties" = some (.vbool false)))) ∧
    (∀ (tool : AnthropicTool) (ct : CanonicalTool),
      anthropicToCanonical (.anthropicVal tool) = .ok ct →
      ∃ tool' : AnthropicTool, anthropicFromCanonical (some ct) = .ok tool' ∧
        tool'.name = tool.name ∧ tool'.description = tool.description ∧
        (∀ pm, tool.inputSchema = some pm →
          ∃ pm', tool'.inputSchema = some pm' ∧ deepPreserved pm pm')) := by
  refine ⟨?_, ?_, ?_⟩
  · -- MCP
    intro t ct h
    replace h : mcpToCanonicalFn t = .ok ct := h
    obtain ⟨hname, hdesc, hmeta, hin, hout⟩ := mcpToCanonicalFn_inv h
    refine ⟨_, rfl, ?_, ?_, ?_, ?_⟩
    · simp [mcpFromCanonical, hname]
    · simp [mcpFromCanonical, hdesc]
    · show (match ct.sourceMeta with
        | some meta =>
          match goLookup meta "title" with
          | some (.vstr t) => t
          | _ => ""
        | none => "") = t.title
      rw [hmeta]
      by_cases ht : t.title = ""
      · simp [ht, goLookup]
      · simp [ht, goLookup]
    · intro m hm
      rw [hm] at hin
      obtain ⟨s, hps, hcti⟩ := hin
      refine ⟨s.toMap, ?_, parse_toMap_deep hps⟩
      show (match ct.inputSchema with
        | some s => some (GoVal.vmap s.toMap)
        | none => none) = some (.vmap s.toMap)
      rw [hcti]
  · -- OpenAI
    intro fn ct h
    replace h : openaiToCanonicalFn fn = .ok ct := h
    obtain ⟨hname, hdesc, hmeta, hin⟩ := openaiToCanonicalFn_inv h
    have hstrict : (match ct.sourceMeta with
        | some meta =>
          match goLookup meta "strict" with
          | some (.vbool b) => b
          | _ => false
        | none => false) = fn.strict := by
      rw [hmeta]
      cases hstr : fn.strict <;> simp [goLookup]
    refine ⟨_, rfl, ?_, ?_, ?_, ?_⟩
    · simp [openaiFromCanonical, hname]
    · simp [openaiFromCanonical, hdesc]
    · show (match ct.sourceMeta with
        | some meta =>
          match goLookup meta "strict" with
          | some (.vbool b) => b
          | _ => false
        | none => false) = fn.strict
      exact hstrict
    · intro pm hp
      rw [hp] at hin
      obtain ⟨s, hps, hcti⟩ := hin
      have hdeep := parse_toMap_deep hps
      obtain ⟨hleaf, hap, href, hnested⟩ := (deepPreserved_iff _ _).mp hdeep
      show ∃ pm', (match ct.inputSchema with
          | some s =>
            some (if (match ct.sourceMeta with
              | some meta =>
                match goLookup meta "strict" with
                | some (.vbool b) => b
                | _ => false
              | none => false) then goSet s.toMap "additionalProperties" (.vbool false)
              else s.toMap)
          | none => none) = some pm' ∧ _
      rw [hcti, hstrict]
      cases hstr : fn.strict with
      | false =>
        refine ⟨s.toMap, by simp, fun _ => hdeep, fun hcontra => ?_⟩
        simp at hcontra
      | true =>
        refine ⟨goSet s.toMap "additionalProperties" (.vbool false), by simp,
                fun hcontra => ?_, fun _ => ?_⟩
        · simp at hcontra
        · refine ⟨leafPreserved_mono
              (fun k hk => goLookup_goSet_ne (fun he => hk he.symm) _ _) hleaf,
            ?_, deepNested_goSet hnested, goLookup_goSet_self _ _ _⟩
          intro str ha hb
          rw [goLookup_goSet_ne (by decide)]
          exact href str ha hb
  · -- Anthropic
    intro tool ct h
    replace h : anthropicToCanonicalFn tool = .ok ct := h
    obtain ⟨hname, hdesc, hmeta, hin⟩ := anthropicToCanonicalFn_inv h
    refine ⟨_, rfl, ?_, ?_, ?_⟩
    · simp [anthropicFromCanonical, hname]
    · simp [anthropicFromCanonical, hdesc]
    · intro pm hp
      rw [hp] at hin
      obtain ⟨s, hps, hcti⟩ := hin
      refine ⟨s.toMap, ?_, parse_toMap_deep hps⟩
      show (match ct.inputSchema with
        | some s => some s.toMap
        | none => none) = some s.toMap
      rw [hcti]

/-- Counterexample to C3 as stated: a strict OpenAI function whose parameters
explicitly set `additionalProperties` to `true` — a populated leaf constraint
that OpenAI's format can express — round trips to `additionalProperties =
false`, because the strict-mode root override wins. -/
theorem roundtrip_strict_additionalProperties_cex :
    ∃ (ct : CanonicalTool) (fn' : OpenAIFunction) (pm' : GoMap),
      openaiToCanonical (.openaiVal
        { name := "f", strict := true,
          parameters := some [("type", .vstr "object"),
                              ("additionalProperties", .vbool true)] }) = .ok ct ∧
      openaiFromCanonical (some ct) = .ok fn' ∧
      fn'.strict = true ∧
      fn'.parameters = some pm' ∧
      goLookup [("type", .vstr "object"), ("additionalProperties", .vbool true)]
        "additionalProperties" = some (.vbool true) ∧
      goLookup pm' "additionalProperties" = some (.vbool false) := by
  have hs : mapToJSONSchema (.vmap [("type", .vstr "object"),
      ("additionalProperties", .vbool true)]) =
      .ok (.mk { type := "object", additionalProperties := some true }
        [] none [] [] [] [] none) := by
    rw [mapToJSONSchema, parsePropsF_eq, parseItemsF_eq, parseDefsF_eq, parseCombF_eq,
        parseCombF_eq, parseCombF_eq, parseNotF_eq]
    simp [goLookup, scalarPart, getStr, getNum, getLen, getBool, getAny, getArr,
          getRequired]
  have h1 : openaiToCanonical (.openaiVal
      { name := "f", strict := true,
        parameters := some [("type", .vstr "object"),
                            ("additionalProperties", .vbool true)] }) =
      .ok { name := "f", sourceFormat := "openai",
            sourceMeta := some [("strict", GoVal.vbool true)],
            inputSchema :=
              some (.mk { type := "object", additionalProperties := some true }
                [] none [] [] [] [] none) } := by
    have := @openaiToCanonicalFn_eq_some
      { name := "f", strict := true,
        parameters := some [("type", .vstr "object"),
                            ("additionalProperties", .vbool true)] }
      _ _ rfl hs
    simpa using this
  have h2 : openaiFromCanonical
      (some { name := "f", sourceFormat := "openai",
              sourceMeta := some [("strict", GoVal.vbool true)],
              inputSchema :=
                some (.mk { type := "object", additionalProperties := some true }
                  [] none [] [] [] [] none) }) =
      .ok { name := "f", strict := true,
            parameters :=
              some (goSet (JSONSchema.mk
                  { type := "object", additionalProperties := some true }
                  [] none [] [] [] [] none).toMap
                "additionalProperties" (.vbool false)) } := by
    simp [openaiFromCanonical, goLookup]
  exact ⟨_, _, _, h1, h2, rfl, rfl, rfl, goLookup_goSet_self _ _ _⟩

/-- Witness for the amended C3 at a concrete MCP tool with title and
schema. -/
theorem adapter_roundtrip_preservation_witness :
    ∃ (ct : CanonicalTool) (t' : MCPTool),
      mcpToCanonical (.mcpVal
        { name := "w", title := "W", description := "dw",
          inputSchema := some (.vmap [("type", .vstr "object")]) }) = .ok ct ∧
      mcpFromCanonical (some ct) = .ok t' ∧
      t'.name = "w" ∧ t'.description = "dw" ∧ t'.title = "W" := by
  have hs : mapToJSONSchema (.vmap [("type", .vstr "object")]) =
      .ok (.mk { type := "object" } [] none [] [] [] [] none) := by
    rw [mapToJSONSchema, parsePropsF_eq, parseItemsF_eq, parseDefsF_eq, parseCombF_eq,
        parseCombF_eq, parseCombF_eq, parseNotF_eq]
    simp [goLookup, scalarPart, getStr, getNum, getLen, getBool, getAny, getArr,
          getRequired]
  have h1 : mcpToCanonical (.mcpVal
      { name := "w", title := "W", description := "dw",
        inputSchema := some (.vmap [("type", .vstr "object")]) }) =
      .ok { name := "w", description := "dw", sourceFormat := "mcp",
            sourceMeta := some [("title", GoVal.vstr "W")],
            inputSchema :=
              some (.mk { type := "object" } [] none [] [] [] [] none) } := by
    have := @mcpToCanonicalFn_eq_some
      { name := "w", title := "W", description := "dw",
        inputSchema := some (.vmap [("type", .vstr "object")]) }
      _ _ rfl hs rfl
    simpa using this
  obtain ⟨t', h2, hname, hdesc, htitle, -⟩ :=
    adapter_roundtrip_preservation.1
      { name := "w", title := "W", description := "dw",
        inputSchema := some (.vmap [("type", .vstr "object")]) } _ h1
  exact ⟨_, t', h1, h2, by rw [hname], by rw [hdesc], by rw [htitle]⟩

/-- C5: for every generic schema map, if any nested value under
`properties`, `items`, `$defs`, a combinator key (`anyOf`, `oneOf`, `allOf`)
or `not` is present but fails to parse as a schema, the whole
`mapToJSONSchema` parse fails (the innermost failure propagates), and no
partial schema is returned on failure (the failing result is never an `ok`
value). -/
theorem mapToJSONSchema_nested_failure_propagates (m : GoMap) :
    (∀ pm k v e, goLookup m "properties" = some (.vmap pm) → (k, v) ∈ pm →
      mapToJSONSchema v = .error e → ∃ e', mapToJSONSchema (.vmap m) = .error e') ∧
    (∀ v e, goLookup m "items" = some v → mapToJSONSchema v = .error e →
      ∃ e', mapToJSONSchema (.vmap m) = .error e') ∧
    (∀ dm k v e, goLookup m "$defs" = some (.vmap dm) → (k, v) ∈ dm →
      mapToJSONSchema v = .error e → ∃ e', mapToJSONSchema (.vmap m) = .error e') ∧
    (∀ l v e, goLookup m "anyOf" = some (.varr l) → v ∈ l →
      mapToJSONSchema v = .error e → ∃ e', mapToJSONSchema (.vmap m) = .error e') ∧
    (∀ l v e, goLookup m "oneOf" = some (.varr l) → v ∈ l →
      mapToJSONSchema v = .error e → ∃ e', mapToJSONSchema (.vmap m) = .error e') ∧
    (∀ l v e, goLookup m "allOf" = some (.varr l) → v ∈ l →
      mapToJSONSchema v = .error e → ∃ e', mapToJSONSchema (.vmap m) = .error e') ∧
    (∀ v e, goLookup m "not" = some v → mapToJSONSchema v = .error e →
      ∃ e', mapToJSONSchema (.vmap m) = .error e') ∧
    (∀ e' s, mapToJSONSchema (.vmap m) = .error e' →
      mapToJSONSchema (.vmap m) ≠ .ok s) := by
  refine ⟨?_, ?_, ?_, ?_, ?_, ?_, ?_, ?_⟩
  · intro pm k v e hp hmem hfail
    apply mapToJSONSchema_vmap_error_of
    left
    obtain ⟨e', he'⟩ := parseEntries_mem_error hmem hfail
    exact ⟨e', by rw [parsePropsF_eq, hp]; exact he'⟩
  · intro v e hi hfail
    apply mapToJSONSchema_vmap_error_of
    right; left
    exact ⟨e, by rw [parseItemsF_eq, hi]; simp [hfail]⟩
  · intro dm k v e hd hmem hfail
    apply mapToJSONSchema_vmap_error_of
    right; right; left
    obtain ⟨e', he'⟩ := parseEntries_mem_error hmem hfail
    exact ⟨e', by rw [parseDefsF_eq, hd]; exact he'⟩
  · intro l v e hc hmem hfail
    apply mapToJSONSchema_vmap_error_of
    right; right; right; left
    obtain ⟨e', he'⟩ := parseSchemaList_mem_error hmem hfail
    exact ⟨e', by rw [parseCombF_eq, hc]; exact he'⟩
  · intro l v e hc hmem hfail
    apply mapToJSONSchema_vmap_error_of
    right; right; right; right; left
    obtain ⟨e', he'⟩ := parseSchemaList_mem_error hmem hfail
    exact ⟨e', by rw [parseCombF_eq, hc]; exact he'⟩
  · intro l v e hc hmem hfail
    apply mapToJSONSchema_vmap_error_of
    right; right; right; right; right; left
    obtain ⟨e', he'⟩ := parseSchemaList_mem_error hmem hfail
    exact ⟨e', by rw [parseCombF_eq, hc]; exact he'⟩
  · intro v e hn hfail
    apply mapToJSONSchema_vmap_error_of
    right; right; right; right; right; right
    exact ⟨e, by rw [parseNotF_eq, hn]; simp [hfail]⟩
  · intro e' s he hok
    rw [he] at hok
    simp at hok

/-- Witness for C5: a `properties` entry that is not a map aborts the whole
parse. -/
theorem mapToJSONSchema_nested_failure_propagates_witness :
    ∃ e', mapToJSONSchema (.vmap [("properties", .vmap [("bad", .vint 1)])]) =
      .error e' :=
  (mapToJSONSchema_nested_failure_propagates _).1 [("bad", .vint 1)] "bad" (.vint 1)
    "schema is not a map[string]any" rfl (by simp) (by rw [mapToJSONSchema.eq_def])

/-- C7: for each of the three adapters, `ToCanonical` applied to a raw value
whose schema field(s) are absent/nil succeeds and produces a `CanonicalTool`
whose `inputSchema` is nil — no empty object schema is fabricated in place of
a missing one. -/
theorem toCanonical_missing_schema_stays_nil :
    (∀ t : MCPTool, t.inputSchema = none → t.outputSchema = none →
      mcpToCanonical (.mcpVal t) =
        .ok { name := t.name, description := t.description, sourceFormat := "mcp",
              sourceMeta := some (if t.title ≠ "" then [("title", GoVal.vstr t.title)]
                else []),
              inputSchema := none, outputSchema := none }) ∧
    (∀ fn : OpenAIFunction, fn.parameters = none →
      openaiToCanonical (.openaiVal fn) =
        .ok { name := fn.name, description := fn.description, sourceFormat := "openai",
              sourceMeta := some (if fn.strict then [("strict", GoVal.vbool true)]
                else []),
              inputSchema := none }) ∧
    (∀ t : AnthropicTool, t.inputSchema = none →
      anthropicToCanonical (.anthropicVal t) =
        .ok { name := t.name, description := t.description,
              sourceFormat := "anthropic", sourceMeta := some [],
              inputSchema := none }) := by
  exact ⟨fun t h1 h2 => mcpToCanonicalFn_eq_none h1 h2,
         fun fn h => openaiToCanonicalFn_eq_none h,
         fun t h => anthropicToCanonicalFn_eq_none h⟩

/-- Witness for C7 at concrete schema-less raw tools. -/
theorem toCanonical_missing_schema_stays_nil_witness :
    mcpToCanonical (.mcpVal { name := "m", description := "dm" }) =
      .ok { name := "m", description := "dm", sourceFormat := "mcp",
            sourceMeta := some [], inputSchema := none, outputSchema := none } ∧
    openaiToCanonical (.openaiVal { name := "o", description := "do" }) =
      .ok { name := "o", description := "do", sourceFormat := "openai",
            sourceMeta := some [], inputSchema := none } ∧
    anthropicToCanonical (.anthropicVal { name := "a", description := "da" }) =
      .ok { name := "a", description := "da", sourceFormat := "anthropic",
            sourceMeta := some [], inputSchema := none } := by
  refine ⟨?_, ?_, ?_⟩
  · have := toCanonical_missing_schema_stays_nil.1 { name := "m", description := "dm" }
      rfl rfl
    simpa using this
  · have := toCanonical_missing_schema_stays_nil.2.1 { name := "o", description := "do" }
      rfl
    simpa using this
  · have := toCanonical_missing_schema_stays_nil.2.2 { name := "a", description := "da" }
      rfl
    simpa using this

/-- C8: in `mapToJSONSchema` every recognized keyword is extracted field by
field exactly when present with a plausible type (the result's scalar fields
equal `scalarPart` of the input); the numeric keywords `minimum`, `maximum`,
`minLength` and `maxLength` accept either the floating or the integer
representation, normalized to one numeric form (`float64` for the bounds,
`int` for the lengths); and prepending an entry with any unrecognized key
leaves the parse result unchanged — an unknown keyword is silently ignored,
never a parse error. -/
theorem mapToJSONSchema_keyword_extraction :
    (∀ (m : GoMap) (s : JSONSchema), mapToJSONSchema (.vmap m) = .ok s →
      s.scalars = scalarPart m ∧
      (∀ q, goLookup m "minimum" = some (.vfloat q) → s.minimum = some q) ∧
      (∀ n : Int, goLookup m "minimum" = some (.vint n) → s.minimum = some (n : Rat)) ∧
      (∀ q, goLookup m "maximum" = some (.vfloat q) → s.maximum = some q) ∧
      (∀ n : Int, goLookup m "maximum" = some (.vint n) → s.maximum = some (n : Rat)) ∧
      (∀ q, goLookup m "minLength" = some (.vfloat q) →
        s.minLength = some (goTruncToInt q)) ∧
      (∀ n : Int, goLookup m "minLength" = some (.vint n) → s.minLength = some n) ∧
      (∀ q, goLookup m "maxLength" = some (.vfloat q) →
        s.maxLength = some (goTruncToInt q)) ∧
      (∀ n : Int, goLookup m "maxLength" = some (.vint n) → s.maxLength = some n) ∧
      (goLookup m "minimum" = none → s.minimum = none) ∧
      (∀ str, goLookup m "minimum" = some (.vstr str) → s.minimum = none)) ∧
    (∀ (m : GoMap) (k : String) (v : GoVal), k ∉ recognizedKeys →
      mapToJSONSchema (.vmap ((k, v) :: m)) = mapToJSONSchema (.vmap m)) := by
  constructor
  · intro m s h
    obtain ⟨props, items, defs, a, o, al, n, -, -, -, -, -, -, -, hs⟩ :=
      mapToJSONSchema_vmap_ok h
    have hsc : s.scalars = scalarPart m := by rw [hs]; rfl
    refine ⟨hsc, ?_, ?_, ?_, ?_, ?_, ?_, ?_, ?_, ?_, ?_⟩ <;>
      (intros
       simp_all [JSONSchema.minimum, JSONSchema.maximum, JSONSchema.minLength,
                 JSONSchema.maxLength, scalarPart, getNum, getLen])
  · intro m k v hk
    have hne : ∀ key, key ∈ recognizedKeys → k ≠ key := fun key hkey heq => hk (heq ▸ hkey)
    rw [mapToJSONSchema, mapToJSONSchema,
        parsePropsF_cons_ne (hne "properties" (by decide)),
        parseItemsF_cons_ne (hne "items" (by decide)),
        parseDefsF_cons_ne (hne "$defs" (by decide)),
        parseCombF_cons_ne (hne "anyOf" (by decide)),
        parseCombF_cons_ne (hne "oneOf" (by decide)),
        parseCombF_cons_ne (hne "allOf" (by decide)),
        parseNotF_cons_ne (hne "not" (by decide)),
        scalarPart_cons_ne hk]

/-- Witness for C8: a map carrying an integer `minimum` parses with the bound
normalized to the floating form, and prepending an unrecognized key leaves
the parse result unchanged. -/
theorem mapToJSONSchema_keyword_extraction_witness :
    (mapToJSONSchema (.vmap [("minimum", .vint 3)]) =
        .ok (.mk { minimum := some 3 } [] none [] [] [] [] none) ∧
      (JSONSchema.mk { minimum := some 3 } [] none [] [] [] [] none).minimum =
        some ((3 : Int) : Rat)) ∧
    mapToJSONSchema (.vmap [("x-vendor", .vstr "ignored"), ("minimum", .vint 3)]) =
      mapToJSONSchema (.vmap [("minimum", .vint 3)]) := by
  have hparse : mapToJSONSchema (.vmap [("minimum", .vint 3)]) =
      .ok (.mk { minimum := some 3 } [] none [] [] [] [] none) := by
    rw [mapToJSONSchema, parsePropsF_eq, parseItemsF_eq, parseDefsF_eq, parseCombF_eq,
        parseCombF_eq, parseCombF_eq, parseNotF_eq]
    simp [goLookup, scalarPart, getStr, getNum, getLen, getBool, getAny, getArr,
          getRequired]
  refine ⟨⟨hparse, ?_⟩, ?_⟩
  · exact (mapToJSONSchema_keyword_extraction.1 _ _ hparse).2.2.1 3 rfl
  · exact mapToJSONSchema_keyword_extraction.2 _ "x-vendor" (.vstr "ignored") (by decide)

/-- Counterexample to C6 as stated: `ToCanonical` does not succeed on every
value of the adapter's own raw struct type — a well-typed `OpenAIFunction`
(value form) whose `Parameters` contains a malformed nested schema is
rejected with the parse error, not accepted. -/
theorem toCanonical_value_form_failure_cex :
    openaiToCanonical (.openaiVal
      { name := "f", parameters := some [("items", .vint 5)] }) =
      .error "schema is not a map[string]any" := by
  have hv : mapToJSONSchema (.vint 5) = .error "schema is not a map[string]any" := by
    rw [mapToJSONSchema.eq_def]
  have hfail : mapToJSONSchema (.vmap [("items", .vint 5)]) =
      .error "schema is not a map[string]any" := by
    rw [mapToJSONSchema, parsePropsF_eq, parseItemsF_eq, parseDefsF_eq, parseCombF_eq,
        parseCombF_eq, parseCombF_eq, parseNotF_eq]
    simp [goLookup, hv]
  show openaiToCanonicalFn { name := "f", parameters := some [("items", GoVal.vint 5)] } =
    .error "schema is not a map[string]any"
  rw [openaiToCanonicalFn]
  simp [hfail]

/-- C6 (amended): for each adapter, `ToCanonical` treats the value form and
the pointer form of its own raw struct type alike and succeeds on both
whenever the raw value's schema field(s) are absent or parse as well-formed
schema values; a nil pointer of the raw type and every other input fail with
the adapter's descriptive type error (never a zero-valued tool — the error
branch carries no `CanonicalTool` at all). -/
theorem toCanonical_type_dispatch :
    (∀ fn : OpenAIFunction,
      (match fn.parameters with
       | some pm => ∃ s, mapToJSONSchema (.vmap pm) = .ok s
       | none => True) →
      ∃ ct, openaiToCanonical (.openaiVal fn) = .ok ct ∧
            openaiToCanonical (.openaiPtr (some fn)) = .ok ct) ∧
    (openaiToCanonical (.openaiPtr none) = .error "nil OpenAIFunction pointer") ∧
    (∀ raw, (match raw with
             | .openaiVal _ => False
             | .openaiPtr _ => False
             | _ => True) →
      openaiToCanonical raw = .error "expected OpenAIFunction or *OpenAIFunction") ∧
    (∀ tool : AnthropicTool,
      (match tool.inputSchema with
       | some pm => ∃ s, mapToJSONSchema (.vmap pm) = .ok s
       | none => True) →
      ∃ ct, anthropicToCanonical (.anthropicVal tool) = .ok ct ∧
            anthropicToCanonical (.anthropicPtr (some tool)) = .ok ct) ∧
    (anthropicToCanonical (.anthropicPtr none) = .error "nil AnthropicTool pointer") ∧
    (∀ raw, (match raw with
             | .anthropicVal _ => False
             | .anthropicPtr _ => False
             | _ => True) →
      anthropicToCanonical raw = .error "expected AnthropicTool or *AnthropicTool") ∧
    (∀ t : MCPTool,
      (match t.inputSchema with
       | some v => ∃ s, mapToJSONSchema v = .ok s
       | none => True) →
      (match t.outputSchema with
       | some v => ∃ s, mapToJSONSchema v = .ok s
       | none => True) →
      ∃ ct, mcpToCanonical (.mcpVal t) = .ok ct ∧
            mcpToCanonical (.mcpPtr (some t)) = .ok ct) ∧
    (mcpToCanonical (.mcpPtr none) = .error "nil mcp.Tool pointer") ∧
    (∀ raw, (match raw with
             | .mcpVal _ => False
             | .mcpPtr _ => False
             | _ => True) →
      mcpToCanonical raw = .error "expected mcp.Tool or *mcp.Tool") := by
  refine ⟨?_, rfl, ?_, ?_, rfl, ?_, ?_, rfl, ?_⟩
  · intro fn hp
    have : ∃ ct, openaiToCanonicalFn fn = .ok ct := by
      cases hpm : fn.parameters with
      | none => exact ⟨_, openaiToCanonicalFn_eq_none hpm⟩
      | some pm =>
        rw [hpm] at hp
        obtain ⟨s, hs⟩ := hp
        exact ⟨_, openaiToCanonicalFn_eq_some hpm hs⟩
    obtain ⟨ct, hct⟩ := this
    exact ⟨ct, hct, hct⟩
  · intro raw hraw
    cases raw <;> first | exact absurd hraw not_false | rfl
  · intro tool hp
    have : ∃ ct, anthropicToCanonicalFn tool = .ok ct := by
      cases hpm : tool.inputSchema with
      | none => exact ⟨_, anthropicToCanonicalFn_eq_none hpm⟩
      | some pm =>
        rw [hpm] at hp
        obtain ⟨s, hs⟩ := hp
        exact ⟨_, anthropicToCanonicalFn_eq_some hpm hs⟩
    obtain ⟨ct, hct⟩ := this
    exact ⟨ct, hct, hct⟩
  · intro raw hraw
    cases raw <;> first | exact absurd hraw not_false | rfl
  · intro t hin hout
    have : ∃ ct, mcpToCanonicalFn t = .ok ct := by
      rw [mcpToCanonicalFn]
      cases hpm : t.inputSchema with
      | none =>
        simp only [ebind_ok, epure_eq_ok]
        cases hq : t.outputSchema with
        | none => exact ⟨_, rfl⟩
        | some w =>
          rw [hq] at hout
          obtain ⟨s, hs⟩ := hout
          simp only [hs, ebind_ok, epure_eq_ok]
          exact ⟨_, rfl⟩
      | some v =>
        rw [hpm] at hin
        obtain ⟨s, hs⟩ := hin
        simp only [hs, ebind_ok, epure_eq_ok]
        cases hq : t.outputSchema with
        | none => exact ⟨_, rfl⟩
        | some w =>
          rw [hq] at hout
          obtain ⟨so, hso⟩ := hout
          simp only [hso, ebind_ok, epure_eq_ok]
          exact ⟨_, rfl⟩
    obtain ⟨ct, hct⟩ := this
    exact ⟨ct, hct, hct⟩
  · intro raw hraw
    cases raw <;> first | exact absurd hraw not_false | rfl

/-- Witness for the amended C6: value and pointer forms of a concrete
schema-less function succeed identically, and a string input is rejected
with the type error. -/
theorem toCanonical_type_dispatch_witness :
    (∃ ct, openaiToCanonical (.openaiVal { name := "w" }) = .ok ct ∧
           openaiToCanonical (.openaiPtr (some { name := "w" })) = .ok ct) ∧
    openaiToCanonical (.rawString "not a function") =
      .error "expected OpenAIFunction or *OpenAIFunction" :=
  ⟨toCanonical_type_dispatch.1 { name := "w" } trivial,
   toCanonical_type_dispatch.2.2.1 (.rawString "not a function") trivial⟩

/-- C2: for every registered pair of adapters and every raw tool the from
adapter accepts, `Registry.Convert` emits exactly one `FeatureLossWarning`
for each feature that the from adapter supports, the to adapter does not,
and that is exercised somewhere in the canonical tool's schema tree (the
recursive `toolUsesFeature` scan over both input and output schema); and
feature loss never makes `Convert` fail — whenever both adapter calls
succeed, `Convert` returns a result carrying the accumulated warnings. -/
theorem registry_convert_warnings (reg : Registry) (fromName toName : String)
    (fromA toA : Adapter) (raw : RawValue) (ct : CanonicalTool) (out : RawOut)
    (hf : registryGet reg fromName = some fromA)
    (ht : registryGet reg toName = some toA)
    (h1 : fromA.toCanonical raw = .ok ct)
    (h2 : toA.fromCanonical (some ct) = .ok out) :
    registryConvert reg raw fromName toName = .ok ⟨out, lossWarnings fromA toA ct⟩ ∧
    (∀ f, (⟨f, fromA.name, toA.name⟩ : FeatureLossWarning) ∈ lossWarnings fromA toA ct ↔
      (fromA.supportsFeature f = true ∧ toA.supportsFeature f = false ∧
       toolUsesFeature ct f = true)) ∧
    (lossWarnings fromA toA ct).Nodup := by
  refine ⟨?_, ?_, ?_⟩
  · simp only [registryConvert, hf, ht, h1, h2]
  · intro f
    constructor
    · intro hmem
      obtain ⟨g, hg, heq⟩ := List.mem_map.mp hmem
      injection heq with hg1 hg2 hg3
      subst hg1
      have hcond := List.of_mem_filter hg
      simp only [Bool.and_eq_true, Bool.not_eq_true'] at hcond
      exact ⟨hcond.1.1, hcond.1.2, hcond.2⟩
    · rintro ⟨hsf, hst, hu⟩
      apply List.mem_map.mpr
      refine ⟨f, List.mem_filter.mpr ⟨?_, ?_⟩, rfl⟩
      · cases f <;> simp [AllFeatures]
      · simp [hsf, hst, hu]
  · apply List.Nodup.map_on
    · intro a _ b _ heq
      injection heq
    · exact List.Nodup.filter _ (by decide : AllFeatures.Nodup)

/-- Witness for C2: converting an MCP tool whose schema uses `$ref` to the
OpenAI format succeeds and the warning list contains the `$ref` loss. -/
theorem registry_convert_warnings_witness :
    registryConvert [mcpAdapter, openaiAdapter]
        (.mcpVal { name := "t",
                   inputSchema := some (.vmap [("$ref", .vstr "#/$defs/P")]) })
        "mcp" "openai" =
      .ok ⟨RawOut.openaiFn
            { name := "t",
              parameters := some ((JSONSchema.mk { ref := "#/$defs/P" }
                [] none [] [] [] [] none).toMap) },
           lossWarnings mcpAdapter openaiAdapter
             { name := "t", sourceFormat := "mcp", sourceMeta := some [],
               inputSchema := some (.mk { ref := "#/$defs/P" }
                 [] none [] [] [] [] none) }⟩ ∧
    (⟨.ref, "mcp", "openai"⟩ : FeatureLossWarning) ∈
      lossWarnings mcpAdapter openaiAdapter
        { name := "t", sourceFormat := "mcp", sourceMeta := some [],
          inputSchema := some (.mk { ref := "#/$defs/P" } [] none [] [] [] [] none) } := by
  have hs : mapToJSONSchema (.vmap [("$ref", .vstr "#/$defs/P")]) =
      .ok (.mk { ref := "#/$defs/P" } [] none [] [] [] [] none) := by
    rw [mapToJSONSchema, parsePropsF_eq, parseItemsF_eq, parseDefsF_eq, parseCombF_eq,
        parseCombF_eq, parseCombF_eq, parseNotF_eq]
    simp [goLookup, scalarPart, getStr, getNum, getLen, getBool, getAny, getArr,
          getRequired]
  have h1 : mcpAdapter.toCanonical
      (.mcpVal { name := "t", inputSchema := some (.vmap [("$ref", .vstr "#/$defs/P")]) }) =
      .ok { name := "t", sourceFormat := "mcp", sourceMeta := some [],
            inputSchema := some (.mk { ref := "#/$defs/P" } [] none [] [] [] [] none) } := by
    have := @mcpToCanonicalFn_eq_some
      { name := "t", inputSchema := some (.vmap [("$ref", .vstr "#/$defs/P")]) }
      _ _ rfl hs rfl
    simpa [mcpAdapter] using this
  have h2 : openaiAdapter.fromCanonical
      (some { name := "t", sourceFormat := "mcp", sourceMeta := some [],
              inputSchema := some (.mk { ref := "#/$defs/P" } [] none [] [] [] [] none) }) =
      .ok (RawOut.openaiFn
        { name := "t",
          parameters := some ((JSONSchema.mk { ref := "#/$defs/P" }
            [] none [] [] [] [] none).toMap) }) := by
    simp [openaiAdapter, openaiFromCanonical, Except.map, goLookup]
  have hmain := registry_convert_warnings [mcpAdapter, openaiAdapter] "mcp" "openai"
    mcpAdapter openaiAdapter
    (.mcpVal { name := "t", inputSchema := some (.vmap [("$ref", .vstr "#/$defs/P")]) })
    { name := "t", sourceFormat := "mcp", sourceMeta := some [],
      inputSchema := some (.mk { ref := "#/$defs/P" } [] none [] [] [] [] none) }
    (RawOut.openaiFn
      { name := "t",
        parameters := some ((JSONSchema.mk { ref := "#/$defs/P" }
          [] none [] [] [] [] none).toMap) })
    (by simp [registryGet, mcpAdapter, openaiAdapter])
    (by simp [registryGet, mcpAdapter, openaiAdapter])
    h1 h2
  refine ⟨hmain.1, (hmain.2.1 .ref).mpr ⟨rfl, rfl, ?_⟩⟩
  rw [toolUsesFeature]
  simp only [schemaUsesFeature]
  simp [scalarUsesFeature, mcpAdapter, openaiAdapter, entriesUseFeature, listUsesFeature,
        optUsesFeature]

/-- C1: for every `CanonicalTool` whose `sourceMeta` binds `"strict"` to
`true` and whose input schema is non-nil, the OpenAI adapter's
`FromCanonical` succeeds and returns an `OpenAIFunction` with `Strict = true`
whose `Parameters` map binds the root key `"additionalProperties"` to
`false`, regardless of what the canonical schema specified for
`additionalProperties` (the quantification over `s` covers every possible
input schema, including any root `additionalProperties` value or none). -/
theorem openai_strict_forces_root_additionalProperties
    (t : CanonicalTool) (meta : GoMap) (s : JSONSchema)
    (hm : t.sourceMeta = some meta)
    (hstrict : goLookup meta "strict" = some (.vbool true))
    (hs : t.inputSchema = some s) :
    openaiFromCanonical (some t) =
      .ok { name := t.name, description := t.description,
            parameters := some (goSet s.toMap "additionalProperties" (.vbool false)),
            strict := true } ∧
    goLookup (goSet s.toMap "additionalProperties" (.vbool false))
      "additionalProperties" = some (.vbool false) := by
  refine ⟨?_, goLookup_goSet_self _ _ _⟩
  rw [openaiFromCanonical]
  simp [hm, hstrict, hs]

/-- Witness for C1 at a concrete strict tool whose schema does not mention
`additionalProperties`. -/
theorem openai_strict_forces_root_additionalProperties_witness :
    openaiFromCanonical (some { name := "f", description := "d",
                                sourceMeta := some [("strict", GoVal.vbool true)],
                                inputSchema :=
                                  some (.mk { type := "object" } [] none [] [] [] [] none) }) =
      .ok { name := "f", description := "d",
            parameters := some (goSet (JSONSchema.mk { type := "object" }
              [] none [] [] [] [] none).toMap "additionalProperties" (.vbool false)),
            strict := true } ∧
    goLookup (goSet (JSONSchema.mk { type := "object" }
        [] none [] [] [] [] none).toMap "additionalProperties" (.vbool false))
      "additionalProperties" = some (.vbool false) :=
  openai_strict_forces_root_additionalProperties _ _ _ rfl rfl rfl

/-- C9: the strict-mode root override happens only when an input schema is
present: with `sourceMeta["strict"] = true` and a nil input schema, the
OpenAI adapter's `FromCanonical` succeeds with `Strict = true` and a nil
`Parameters` map (no schema map and no `additionalProperties` entry is
fabricated). -/
theorem openai_strict_nil_schema_no_fabrication
    (t : CanonicalTool) (meta : GoMap)
    (hm : t.sourceMeta = some meta)
    (hstrict : goLookup meta "strict" = some (.vbool true))
    (hs : t.inputSchema = none) :
    openaiFromCanonical (some t) =
      .ok { name := t.name, description := t.description,
            parameters := none, strict := true } := by
  rw [openaiFromCanonical]
  simp [hm, hstrict, hs]

/-- Witness for C9 at a concrete strict tool without an input schema. -/
theorem openai_strict_nil_schema_no_fabrication_witness :
    openaiFromCanonical (some { name := "g",
                                sourceMeta := some [("strict", GoVal.vbool true)] }) =
      .ok { name := "g", description := "", parameters := none, strict := true } :=
  openai_strict_nil_schema_no_fabrication _ _ rfl rfl rfl

/-- C4: `SupportsFeature` is total over the feature enumeration and returns
exactly the declared matrix: the MCP adapter supports everything; the OpenAI
adapter rejects exactly `$ref`, `$defs`, `anyOf`, `oneOf`, `allOf` and `not`
(so `pattern` and all remaining features are supported); the Anthropic
adapter rejects exactly `$ref` and `$defs` (so the combinators are
supported). -/
theorem supportsFeature_matrix :
    (∀ f, mcpSupportsFeature f = true) ∧
    (∀ f, openaiSupportsFeature f = false ↔
      (f = SchemaFeature.ref ∨ f = SchemaFeature.defs ∨ f = SchemaFeature.anyOf ∨
       f = SchemaFeature.oneOf ∨ f = SchemaFeature.allOf ∨ f = SchemaFeature.not)) ∧
    (∀ f, anthropicSupportsFeature f = false ↔
      (f = SchemaFeature.ref ∨ f = SchemaFeature.defs)) := by
  refine ⟨fun f => rfl, fun f => ?_, fun f => ?_⟩ <;>
    cases f <;> simp [openaiSupportsFeature, anthropicSupportsFeature]

/-- C10: every successful `ToCanonical` of each of the three adapters
returns a `CanonicalTool` whose `sourceMeta` map is non-nil (it is
initialized even when no format-specific metadata is stashed). -/
theorem toCanonical_sourceMeta_initialized :
    (∀ raw ct, mcpToCanonical raw = .ok ct → ct.sourceMeta.isSome = true) ∧
    (∀ raw ct, openaiToCanonical raw = .ok ct → ct.sourceMeta.isSome = true) ∧
    (∀ raw ct, anthropicToCanonical raw = .ok ct → ct.sourceMeta.isSome = true) := by
  refine ⟨fun raw ct h => ?_, fun raw ct h => ?_, fun raw ct h => ?_⟩ <;>
    cases raw <;> simp [mcpToCanonical, openaiToCanonical, anthropicToCanonical] at h
  case mcpVal t =>
    obtain ⟨-, -, hm, -, -⟩ := mcpToCanonicalFn_inv h
    simp [hm]
  case mcpPtr p =>
    cases p with
    | none => simp at h
    | some t =>
      simp at h
      obtain ⟨-, -, hm, -, -⟩ := mcpToCanonicalFn_inv h
      simp [hm]
  case openaiVal fn =>
    obtain ⟨-, -, hm, -⟩ := openaiToCanonicalFn_inv h
    simp [hm]
  case openaiPtr p =>
    cases p with
    | none => simp at h
    | some fn =>
      simp at h
      obtain ⟨-, -, hm, -⟩ := openaiToCanonicalFn_inv h
      simp [hm]
  case anthropicVal t =>
    obtain ⟨-, -, hm, -⟩ := anthropicToCanonicalFn_inv h
    simp [hm]
  case anthropicPtr p =>
    cases p with
    | none => simp at h
    | some t =>
      simp at h
      obtain ⟨-, -, hm, -⟩ := anthropicToCanonicalFn_inv h
      simp [hm]

/-- Witness for C10: the three adapters on concrete raw values (one without
any stashed metadata). -/
theorem toCanonical_sourceMeta_initialized_witness :
    (∃ ct, mcpToCanonical (.mcpVal { name := "m" }) = .ok ct ∧ ct.sourceMeta.isSome = true) ∧
    (∃ ct, openaiToCanonical (.openaiVal { name := "o" }) = .ok ct ∧
      ct.sourceMeta.isSome = true) ∧
    (∃ ct, anthropicToCanonical (.anthropicVal { name := "a" }) = .ok ct ∧
      ct.sourceMeta.isSome = true) := by
  have h1 : mcpToCanonical (.mcpVal { name := "m" }) =
      .ok { name := "m", sourceFormat := "mcp", sourceMeta := some [] } := by
    have := @mcpToCanonicalFn_eq_none { name := "m" } rfl rfl
    simpa using this
  have h2 : openaiToCanonical (.openaiVal { name := "o" }) =
      .ok { name := "o", sourceFormat := "openai", sourceMeta := some [] } := by
    have := @openaiToCanonicalFn_eq_none { name := "o" } rfl
    simpa using this
  have h3 : anthropicToCanonical (.anthropicVal { name := "a" }) =
      .ok { name := "a", sourceFormat := "anthropic", sourceMeta := some [] } := by
    have := @anthropicToCanonicalFn_eq_none { name := "a" } rfl
    simpa using this
  exact ⟨⟨_, h1, toCanonical_sourceMeta_initialized.1 _ _ h1⟩,
         ⟨_, h2, toCanonical_sourceMeta_initialized.2.1 _ _ h2⟩,
         ⟨_, h3, toCanonical_sourceMeta_initialized.2.2 _ _ h3⟩⟩

end ToolAdapter
